import Mathlib

/-!
Verification of the waypoint protocol stack: the wire connection runtime
(crates/wayland, crates/ei) and the protocol compiler's dependency/version
resolver and interface pruner (crates/wayland_scanner, crates/ei_scanner).

Machine integers are modelled as `Nat`/`Int`; a byte is a `Nat` (< 256 for
values produced by the code).  `u32::to_ne_bytes`/`from_ne_bytes` are modelled
in little-endian order; all claims are endianness-independent since encode and
decode use the same order.  File descriptors are modelled by their numeric
identity (`Nat`).  `VecDeque` front is the head of a `List`; `push_back`
appends, `pop_back` takes the last element.  `BTreeMap` is modelled as an
association list (`lookupA`/`insertA` below); the map results proved about are
independent of entry order.
-/

namespace Waypoint

/-! ## Association-list maps (model of `BTreeMap`) -/

def lookupA {α : Type} (m : List (Nat × α)) (k : Nat) : Option α :=
  match m with
  | [] => none
  | (k', v) :: rest => if k' = k then some v else lookupA rest k

/-- Model of `BTreeMap::insert`: replace the first binding of `k`, else add one. -/
def insertA {α : Type} (m : List (Nat × α)) (k : Nat) (v : α) : List (Nat × α) :=
  match m with
  | [] => [(k, v)]
  | (k', v') :: rest => if k' = k then (k, v) :: rest else (k', v') :: insertA rest k v

/-- Model of `BTreeMap::entry(k).or_insert(v)` / `Entry::Vacant` handling. -/
def orInsertA {α : Type} (m : List (Nat × α)) (k : Nat) (v : α) : List (Nat × α) :=
  match lookupA m k with
  | some _ => m
  | none => insertA m k v

/-- Model of the scanner's occupied-entry update `*entry.get_mut() = max(existing, v)`
(vacant entries are inserted as `v`). -/
def insertMaxA (m : List (Nat × Nat)) (k v : Nat) : List (Nat × Nat) :=
  match lookupA m k with
  | some old => insertA m k (Nat.max old v)
  | none => insertA m k v

theorem lookupA_insertA_self {α : Type} (m : List (Nat × α)) (k : Nat) (v : α) :
    lookupA (insertA m k v) k = some v := by
  induction m with
  | nil => simp [insertA, lookupA]
  | cons hd tl ih =>
    obtain ⟨k', v'⟩ := hd
    by_cases h : k' = k
    · simp [insertA, lookupA, h]
    · simp [insertA, lookupA, h, ih]

theorem lookupA_insertA_ne {α : Type} (m : List (Nat × α)) {k j : Nat} (v : α) (h : j ≠ k) :
    lookupA (insertA m k v) j = lookupA m j := by
  have hkj : ¬ k = j := fun hh => h hh.symm
  induction m with
  | nil => simp [insertA, lookupA, hkj]
  | cons hd tl ih =>
    obtain ⟨k', v'⟩ := hd
    by_cases hk : k' = k
    · subst hk
      simp [insertA, lookupA, hkj]
    · simp only [insertA, if_neg hk, lookupA]
      by_cases hj : k' = j
      · simp [hj]
      · simp [hj, ih]

theorem lookupA_orInsertA_self {α : Type} (m : List (Nat × α)) (k : Nat) (v : α) :
    (lookupA (orInsertA m k v) k).isSome := by
  unfold orInsertA
  cases h : lookupA m k with
  | some w => simp [h]
  | none => simp [lookupA_insertA_self]

theorem lookupA_orInsertA_ne {α : Type} (m : List (Nat × α)) {k j : Nat} (v : α) (h : j ≠ k) :
    lookupA (orInsertA m k v) j = lookupA m j := by
  unfold orInsertA
  cases hm : lookupA m k with
  | some w => rfl
  | none => exact lookupA_insertA_ne m v h

theorem lookupA_insertMaxA_self (m : List (Nat × Nat)) (k v : Nat) :
    ∃ x, lookupA (insertMaxA m k v) k = some x ∧ v ≤ x := by
  unfold insertMaxA
  cases hm : lookupA m k with
  | some old => exact ⟨Nat.max old v, lookupA_insertA_self .., Nat.le_max_right _ _⟩
  | none => exact ⟨v, lookupA_insertA_self .., Nat.le_refl v⟩

theorem lookupA_insertMaxA_ne (m : List (Nat × Nat)) {k j : Nat} (v : Nat) (h : j ≠ k) :
    lookupA (insertMaxA m k v) j = lookupA m j := by
  unfold insertMaxA
  cases hm : lookupA m k with
  | some old => exact lookupA_insertA_ne m _ h
  | none => exact lookupA_insertA_ne m _ h

/-! ## Wire connection runtime, 32-bit-id family (crates/wayland/src/lib.rs) -/

namespace Wl

/-- Bytes of a `u32` as laid out by `u32::to_ne_bytes` (little-endian model). -/
def u32Bytes (v : Nat) : List Nat :=
  [v % 256, v / 256 % 256, v / 65536 % 256, v / 16777216 % 256]

/-- Inverse of `u32Bytes` on 4-byte lists: `u32::from_ne_bytes`. -/
def u32OfBytes : List Nat → Nat
  | b0 :: b1 :: b2 :: b3 :: _ => b0 + 256 * b1 + 65536 * b2 + 16777216 * b3
  | _ => 0

/-- Two's-complement bit pattern of an `i32` value, as produced by `i32::to_ne_bytes`. -/
def i32Bits (v : Int) : Nat := (v % 4294967296).toNat

/-- Value of an `i32` read back from a `u32` bit pattern (`as i32` cast). -/
def i32OfBits (v : Nat) : Int :=
  if v < 2147483648 then (v : Int) else (v : Int) - 4294967296

/-- `Arg` enum of crates/wayland.  Strings are represented by their UTF-8 byte
content (`&str` in the source); `Fixed` carries its raw `i32`. -/
inductive Arg : Type where
  | int (v : Int)
  | uint (v : Nat)
  | fixed (v : Int)
  | array (s : List Nat)
  | string (s : Option (List Nat))
deriving DecidableEq, Repr

/-- Per-argument byte size as summed in `Connection::write_message`. -/
def argSize : Arg → Nat
  | .int _ => 4
  | .uint _ => 4
  | .fixed _ => 4
  | .string (some s) => 4 + (s.length + 4) / 4 * 4
  | .string none => 4
  | .array s => 4 + (s.length + 3) / 4 * 4

def bytesLen (args : List Arg) : Nat := (args.map argSize).sum

/-- Payload bytes appended for one argument by `Connection::write_message`.
The length-field casts (`u32::try_from(s.len() + 1)`) are exact for all inputs
accepted by the assertion in `write_message`.  Note the source writes
`s.len() + 1` as the length field for arrays as well as for strings. -/
def encodeArg : Arg → List Nat
  | .int v => u32Bytes (i32Bits v)
  | .fixed v => u32Bytes (i32Bits v)
  | .uint v => u32Bytes v
  | .string none => u32Bytes 0
  | .string (some s) =>
      u32Bytes (s.length + 1) ++ s ++ List.replicate ((s.length + 4) / 4 * 4 - s.length) 0
  | .array s =>
      u32Bytes (s.length + 1) ++ s ++ List.replicate ((s.length + 3) / 4 * 4 - s.length) 0

/-- Connection state: the two ring buffers (content view) and the two fd queues.
`CircBuf` is modelled by its byte content, the fd `VecDeque`s by lists with the
queue front at the head. -/
structure Connection : Type where
  readBuf : List Nat
  writeBuf : List Nat
  readFds : List Nat
  writeFds : List Nat
deriving DecidableEq, Repr

/-- `Connection::write_message`.  `obj` is a `u32`, `op` a `u16`.  Returns
`none` when the `assert!(bytes_len < u16::MAX - 8)` fails (panic).  Inside the
guarded branch `8 + bytes_len` fits a `u16`, so the `as u16` casts of the
source are exact, and the header word is
`(u32::from(size) << 16) | u32::from(op)`. -/
def writeMessage (c : Connection) (obj op : Nat) (args : List Arg) (fds : List Nat) :
    Option Connection :=
  let bl := bytesLen args
  let c1 : Connection := { c with writeFds := c.writeFds ++ fds }
  if bl < 65527 then
    some { c1 with
      writeBuf := c1.writeBuf ++ u32Bytes obj ++ u32Bytes ((8 + bl) * 65536 + op)
        ++ (args.map encodeArg).flatten }
  else
    none

/-- A partially decoded incoming message: header fields, remaining payload
bytes (the `SplitSlice` view, flattened), and the connection's incoming fd
queue that `read_fd` pops from. -/
structure Msg : Type where
  object : Nat
  opcode : Nat
  data : List Nat
  fds : List Nat
deriving DecidableEq, Repr

/-- `Message::read_uint`: `read_exact` of 4 bytes (`None` when fewer remain). -/
def read_uint (m : Msg) : Option (Nat × Msg) :=
  if 4 ≤ m.data.length then
    some (u32OfBytes (m.data.take 4), { m with data := m.data.drop 4 })
  else
    none

/-- `Message::read_int` (`read_uint` then `as i32`). -/
def read_int (m : Msg) : Option (Int × Msg) :=
  (read_uint m).map (fun p => (i32OfBits p.1, p.2))

/-- `Message::read_fixed` (same bytes as `read_int`, wrapped in `Fixed`). -/
def read_fixed (m : Msg) : Option (Int × Msg) := read_int m

/-- `Message::read_string`: length word, then `(length + 3) / 4 * 4` payload
bytes, truncated to `length - 1` content bytes.  A zero length word is the
null string.  (The `String::from_utf8(..).unwrap()` of the source is the
identity on byte content and is not modelled separately.) -/
def read_string (m : Msg) : Option (Option (List Nat) × Msg) :=
  match read_uint m with
  | none => none
  | some (len, m1) =>
    if len = 0 then
      some (none, m1)
    else
      let padded := (len + 3) / 4 * 4
      if padded ≤ m1.data.length then
        some (some ((m1.data.take padded).take (len - 1)), { m1 with data := m1.data.drop padded })
      else
        none

/-- `Message::read_array`: length word, then `length / 4 * 4` payload bytes
(the source rounds *down* here), truncated to `length` bytes (a no-op, since
fewer were read). -/
def read_array (m : Msg) : Option (List Nat × Msg) :=
  match read_uint m with
  | none => none
  | some (len, m1) =>
    let toRead := len / 4 * 4
    if toRead ≤ m1.data.length then
      some ((m1.data.take toRead).take len, { m1 with data := m1.data.drop toRead })
    else
      none

/-- `Message::read_fd`: pops from the *back* of the incoming fd queue
(`self.fds.pop_back()`). -/
def read_fd (m : Msg) : Option (Nat × Msg) :=
  match m.fds.getLast? with
  | none => none
  | some f => some (f, { m with fds := m.fds.dropLast })

/-- `n` successive `read_fd` calls, as a decoded message with `n` fd arguments
performs: the claimed fds in claim order, and the final message state. -/
def claimAll (m : Msg) : Nat → List Nat × Msg
  | 0 => ([], m)
  | n + 1 =>
    match read_fd m with
    | none => ([], m)
    | some (f, m') =>
      match claimAll m' n with
      | (l, m'') => (f :: l, m'')

/-- Outcome of `Connection::read_message`: either a source-level panic (a
failed `unwrap`/`expect`), `None` ("no complete message yet"), or a decoded
message with the updated connection. -/
inductive ReadOutcome (α : Type) : Type where
  | panicked : ReadOutcome α
  | pending : ReadOutcome α
  | msg (a : α) (c : Connection) : ReadOutcome α
deriving DecidableEq, Repr

/-- `Connection::read_message`.  The decoder receives the header-stripped
payload and the incoming fd queue and returns the decoded value plus the fd
queue it leaves behind.  The source checks `read_buf.len() < 2`, then peeks a
full 8-byte header with `read_exact(..).unwrap()`: with 2..=7 buffered bytes
that `unwrap` panics. -/
def readMessage {α : Type} (c : Connection) (decoder : Msg → Option (α × List Nat)) :
    ReadOutcome α :=
  if c.readBuf.length < 2 then .pending
  else if c.readBuf.length < 8 then .panicked
  else
    let obj := u32OfBytes (c.readBuf.take 4)
    let sizeOp := u32OfBytes ((c.readBuf.drop 4).take 4)
    let size := sizeOp / 65536
    let op := sizeOp % 65536
    if c.readBuf.length < size then .pending
    else
      match decoder { object := obj, opcode := op,
                      data := (c.readBuf.take size).drop 8, fds := c.readFds } with
      | none => .panicked
      | some (a, fds1) => .msg a { c with readBuf := c.readBuf.drop size, readFds := fds1 }

/-- Result of one `sendmsg` call on the socket (oracle for `flush_nonblocking`). -/
inductive SendOutcome : Type where
  | accepted (n : Nat)
  | failed (e : Nat)
deriving DecidableEq, Repr

/-- The errno value `Errno::WOULDBLOCK` (`EAGAIN`). -/
def WOULDBLOCK : Nat := 11

/-- `Connection::flush_nonblocking` (identical in crates/wayland and
crates/ei).  The third component records the single `sendmsg` invocation
(bytes offered, fds attached as ancillary data), or `none` when the socket was
not touched.  On `Err`, `write_to_socket`'s `?` propagates before
`write_fds.clear()` runs, so the state is unchanged; on `Ok(n)` the buffer's
read cursor advances by `n` and the outgoing fd queue is cleared. -/
def flushNonblocking (c : Connection) (send : SendOutcome) :
    Except Nat Bool × Connection × Option (List Nat × List Nat) :=
  if c.writeBuf.isEmpty then
    (Except.ok true, c, none)
  else
    match send with
    | .failed e => (Except.error e, c, some (c.writeBuf, c.writeFds))
    | .accepted n =>
        (Except.ok (decide (0 < n)),
         { c with writeBuf := c.writeBuf.drop n, writeFds := [] },
         some (c.writeBuf, c.writeFds))

/-- `read_from_socket`: one `recvmsg` that appended `bytes` into the incoming
ring buffer (`advance_write_raw`) and appended the `SCM_RIGHTS` fds to the
back of the incoming fd queue in kernel-delivery order (`fds.extend`). -/
def receiveBatch (c : Connection) (bytes : List Nat) (fds : List Nat) : Connection :=
  { c with readBuf := c.readBuf ++ bytes, readFds := c.readFds ++ fds }

end Wl

/-! ## Wire connection runtime, 64-bit-id family (crates/ei/src/lib.rs) -/

namespace Ei

/-- Bytes of a `u64` as laid out by `u64::to_ne_bytes` (little-endian model). -/
def u64Bytes (v : Nat) : List Nat :=
  [v % 256, v / 256 % 256, v / 65536 % 256, v / 16777216 % 256,
   v / 4294967296 % 256, v / 1099511627776 % 256,
   v / 281474976710656 % 256, v / 72057594037927936 % 256]

/-- Two's-complement bit pattern of an `i64` value. -/
def i64Bits (v : Int) : Nat := (v % 18446744073709551616).toNat

/-- `Arg` enum of crates/ei.  `Float` carries the raw IEEE bit pattern of the
`f32` (`to_ne_bytes`/`from_bits` move exactly these 32 bits). -/
inductive Arg : Type where
  | int32 (v : Int)
  | uint32 (v : Nat)
  | int64 (v : Int)
  | uint64 (v : Nat)
  | float (bits : Nat)
  | array (s : List Nat)
  | string (s : Option (List Nat))
deriving DecidableEq, Repr

/-- Per-argument byte size as summed in crates/ei's `Connection::write_message`. -/
def argSize : Arg → Nat
  | .int32 _ => 4
  | .uint32 _ => 4
  | .float _ => 4
  | .int64 _ => 8
  | .uint64 _ => 8
  | .string (some s) => 4 + (s.length + 4) / 4 * 4
  | .string none => 4
  | .array s => 4 + (s.length + 3) / 4 * 4

def bytesLen (args : List Arg) : Nat := (args.map argSize).sum

/-- Payload bytes appended for one argument by crates/ei's `write_message`.
The array branch again writes `s.len() + 1` as the length field. -/
def encodeArg : Arg → List Nat
  | .int32 v => Wl.u32Bytes (Wl.i32Bits v)
  | .uint32 v => Wl.u32Bytes v
  | .float bits => Wl.u32Bytes bits
  | .int64 v => u64Bytes (i64Bits v)
  | .uint64 v => u64Bytes v
  | .string none => Wl.u32Bytes 0
  | .string (some s) =>
      Wl.u32Bytes (s.length + 1) ++ s ++ List.replicate ((s.length + 4) / 4 * 4 - s.length) 0
  | .array s =>
      Wl.u32Bytes (s.length + 1) ++ s ++ List.replicate ((s.length + 3) / 4 * 4 - s.length) 0

/-- crates/ei `Connection::write_message`: `obj` is a `u64`, `op` a `u32`;
asserts `bytes_len < u32::MAX - 16` (that is, `bytes_len < 2^32 - 17`), then
writes an 8-byte object id, a 4-byte size `16 + bytes_len` and a 4-byte
opcode, followed by the argument payload. -/
def writeMessage (c : Wl.Connection) (obj op : Nat) (args : List Arg) (fds : List Nat) :
    Option Wl.Connection :=
  let bl := bytesLen args
  let c1 : Wl.Connection := { c with writeFds := c.writeFds ++ fds }
  if bl < 4294967279 then
    some { c1 with
      writeBuf := c1.writeBuf ++ u64Bytes obj ++ Wl.u32Bytes (16 + bl) ++ Wl.u32Bytes op
        ++ (args.map encodeArg).flatten }
  else
    none

/-- crates/ei `Message::read_uint32`. -/
def read_uint32 (m : Wl.Msg) : Option (Nat × Wl.Msg) := Wl.read_uint m

/-- crates/ei `Message::read_array` (same body as the 32-bit family's). -/
def read_array (m : Wl.Msg) : Option (List Nat × Wl.Msg) := Wl.read_array m

/-- crates/ei `Connection::read_message`: checks `read_buf.len() < 4`, then
peeks a full 16-byte header with `read_exact(..).unwrap()` — with 4..=15
buffered bytes that `unwrap` panics.  Header: 8-byte object id, 4-byte size,
4-byte opcode. -/
def readMessage {α : Type} (c : Wl.Connection) (decoder : Wl.Msg → Option (α × List Nat)) :
    Wl.ReadOutcome α :=
  if c.readBuf.length < 4 then .pending
  else if c.readBuf.length < 16 then .panicked
  else
    let obj := Wl.u32OfBytes (c.readBuf.take 4) + 4294967296 * Wl.u32OfBytes ((c.readBuf.drop 4).take 4)
    let size := Wl.u32OfBytes ((c.readBuf.drop 8).take 4)
    let op := Wl.u32OfBytes ((c.readBuf.drop 12).take 4)
    if c.readBuf.length < size then .pending
    else
      match decoder { object := obj, opcode := op,
                      data := (c.readBuf.take size).drop 16, fds := c.readFds } with
      | none => .panicked
      | some (a, fds1) => .msg a { c with readBuf := c.readBuf.drop size, readFds := fds1 }

end Ei

/-! ## Protocol compiler (crates/wayland_scanner, crates/ei_scanner)

Interface and message names are modelled as `Nat` (an arbitrary totally
ordered key type standing in for `String` `BTreeMap` keys).  Only the fields
the resolver and pruner read are modelled; documentation-only fields
(`description`, `summary`, copyright text) are omitted.  The two scanners'
resolvers are the same traversal instantiated at two map-value types, so the
model is a single `go` parameterized by the scanner's map updates
(`GoSpec`). -/

namespace Scan

/-- `ArgKind` of ei_scanner/src/protocol.rs.  The wayland_scanner model names
`ObjectId` `Object`, has `Int`/`Uint`/`Fixed` for the numeric kinds and no
64-bit kinds; the dependency classification (`NewId` strong, `Object`/
`ObjectId` weak) is identical. -/
inductive ArgKind : Type where
  | newId
  | int32
  | uint32
  | int64
  | uint64
  | float
  | string
  | objectId
  | array
  | fd
deriving DecidableEq, Repr

structure Arg : Type where
  kind : ArgKind
  interface : Option Nat
  allowNull : Bool
deriving DecidableEq, Repr

structure Message : Type where
  name : Nat
  destructor : Bool
  since : Nat
  args : List Arg
deriving DecidableEq, Repr

structure Entry : Type where
  name : Nat
  value : Nat
  since : Nat
deriving DecidableEq, Repr

structure Enum : Type where
  name : Nat
  since : Nat
  bitfield : Bool
  entries : List Entry
deriving DecidableEq, Repr

structure Interface : Type where
  name : Nat
  version : Nat
  requests : List Message
  events : List Message
  enums : List Enum
deriving DecidableEq, Repr

/-- `DependencyKind` of wayland_scanner (`AnyVersion < SameVersion` in the
derived order); ei_scanner names the same two values `Dummy < Real`. -/
inductive DependencyKind : Type where
  | anyVersion
  | sameVersion
deriving DecidableEq, Repr

/-- `Ord::min` on `DependencyKind` (one weak link downgrades the path). -/
def DependencyKind.kmin : DependencyKind → DependencyKind → DependencyKind
  | .sameVersion, .sameVersion => .sameVersion
  | _, _ => .anyVersion

/-- `Ord::max` on `DependencyKind` (parallel edges collapse to the strongest). -/
def DependencyKind.kmax : DependencyKind → DependencyKind → DependencyKind
  | .anyVersion, .anyVersion => .anyVersion
  | _, _ => .sameVersion

/-- The dependency graph `BTreeMap<(String, String), DependencyKind>`,
modelled as an association list over `(from, to)` keys. -/
abbrev Graph := List ((Nat × Nat) × DependencyKind)

def lookupG (g : Graph) (key : Nat × Nat) : Option DependencyKind :=
  match g with
  | [] => none
  | (k', v) :: rest => if k' = key then some v else lookupG rest key

/-- The builder's entry update: vacant inserts, occupied takes
`max(existing, dep_kind)`. -/
def insertMaxG (g : Graph) (key : Nat × Nat) (k : DependencyKind) : Graph :=
  match g with
  | [] => [(key, k)]
  | (k', v) :: rest =>
    if k' = key then (key, DependencyKind.kmax v k) :: rest
    else (k', v) :: insertMaxG rest key k

/-- `make_dependency_graph` (identical in both scanners): scan every argument
of every request and event; a `NewId` argument with a foreign interface
annotation contributes a strong edge, an `ObjectId`/`Object` argument a weak
edge; self-referential edges are dropped.  Other kinds never carry an
interface annotation in scanner input (the source hits `unreachable!()`
otherwise), so they contribute nothing. -/
def make_dependency_graph (interfaces : List Interface) : Graph :=
  interfaces.foldl (fun g iface =>
    (iface.requests ++ iface.events).foldl (fun g msg =>
      msg.args.foldl (fun g arg =>
        match arg.interface with
        | none => g
        | some t =>
          if t = iface.name then g
          else
            match arg.kind with
            | .newId => insertMaxG g (iface.name, t) .sameVersion
            | .objectId => insertMaxG g (iface.name, t) .anyVersion
            | _ => g) g) g) []

/-- The `range(&(global, ""))..`/`take_while` query: all edges out of `n`. -/
def edgesFrom (g : Graph) (n : Nat) : Graph :=
  g.filter (fun e => e.1.1 == n)

/-- The map updates that distinguish the two scanners' `go` functions.
wayland_scanner's map carries versions; ei_scanner's carries
`DependencyKind` marks. -/
structure GoSpec (α : Type) : Type where
  updAny : List (Nat × α) → Nat → List (Nat × α)
  updSame : List (Nat × α) → Nat → Nat → List (Nat × α)
  rootInsert : List (Nat × α) → Nat → Nat → List (Nat × α)

/-- Body of `go`'s edge loop: for each outgoing edge, combine the edge kind
with the path strength by `min`, update the wanted map for the edge target,
and recurse into the target unconditionally (no visited set). -/
def goList {α : Type} (S : GoSpec α)
    (goNext : Nat → Nat → DependencyKind → List (Nat × α) → Option (List (Nat × α))) :
    Graph → Nat → DependencyKind → List (Nat × α) → Option (List (Nat × α))
  | [], _, _, w => some w
  | e :: rest, version, dk, w =>
    match DependencyKind.kmin e.2 dk with
    | .anyVersion =>
      match goNext e.1.2 version .anyVersion (S.updAny w e.1.2) with
      | none => none
      | some w2 => goList S goNext rest version dk w2
    | .sameVersion =>
      match goNext e.1.2 version .sameVersion (S.updSame w e.1.2 version) with
      | none => none
      | some w2 => goList S goNext rest version dk w2

/-- The recursive traversal `go` of both scanners, made total by a fuel
parameter that bounds recursion depth: `none` means the recursion exceeds the
given depth.  The source recursion has no depth bound, so it computes
`w'` exactly when some fuel yields `some w'`, and diverges exactly when every
fuel yields `none`. -/
def go {α : Type} (S : GoSpec α) (g : Graph) :
    Nat → Nat → Nat → DependencyKind → List (Nat × α) → Option (List (Nat × α))
  | 0, _, _, _, _ => none
  | fuel + 1, global, version, dk, w => goList S (go S g fuel) (edgesFrom g global) version dk w

/-- The root loop of both scanners: for each requested `(global, version)` in
order, insert the root into the wanted map and traverse from it with a strong
path strength. -/
def resolveAux {α : Type} (S : GoSpec α) (g : Graph) (fuel : Nat) :
    List (Nat × Nat) → List (Nat × α) → Option (List (Nat × α))
  | [], w => some w
  | gv :: rest, w =>
    match go S g fuel gv.1 gv.2 .sameVersion (S.rootInsert w gv.1 gv.2) with
    | none => none
    | some w2 => resolveAux S g fuel rest w2

/-- Dependency/version resolution: the root loop started on the empty wanted
map. -/
def resolve {α : Type} (S : GoSpec α) (g : Graph) (fuel : Nat)
    (globals : List (Nat × Nat)) : Option (List (Nat × α)) :=
  resolveAux S g fuel globals []

/-- wayland_scanner's `go`: weak targets get `or_insert(0)`, strong targets
`max(existing, version)`, roots `insert(global, version)`. -/
def wlSpec : GoSpec Nat where
  updAny := fun w dep => orInsertA w dep 0
  updSame := fun w dep ver => insertMaxA w dep ver
  rootInsert := fun w r v => insertA w r v

/-- ei_scanner's `go`: weak targets get `or_insert(Dummy)`, strong targets
`insert(dep, Real)`, roots `insert(global, Real)` (`Real` is modelled by the
shared `DependencyKind.sameVersion`). -/
def eiSpec : GoSpec DependencyKind where
  updAny := fun w dep => orInsertA w dep .anyVersion
  updSame := fun w dep _ => insertA w dep .sameVersion
  rootInsert := fun w r _ => insertA w r .sameVersion

/-- ei_scanner's `wanted_interface_versions` pass: `Dummy` interfaces get
version 0; `Real` interfaces must have a caller-supplied version in
`self.interfaces`, else `panic!("must specify interface version")` (`none`). -/
def ei_assign_versions (w : List (Nat × DependencyKind)) (roots : List (Nat × Nat)) :
    Option (List (Nat × Nat)) :=
  match w with
  | [] => some []
  | p :: rest =>
    match p.2 with
    | .anyVersion => (ei_assign_versions rest roots).map (fun l => (p.1, 0) :: l)
    | .sameVersion =>
      match lookupA roots p.1 with
      | none => none
      | some v => (ei_assign_versions rest roots).map (fun l => (p.1, v) :: l)

/-- Membership of an interface in wayland_scanner's `global_allowlist`: no
incoming strong edge anywhere in the graph. -/
def inAllowlist (g : Graph) (n : Nat) : Bool :=
  g.all (fun e => !(e.1.2 == n && e.2 == DependencyKind.sameVersion))

/-- Version pinning and `since`-filtering of one interface, as done inside
`preprocess_interfaces` (identical in both scanners): the version field is set
to the resolved version and requests, events, enums and each retained enum's
entries are retained exactly when `since <= version`. -/
def prune_interface (version : Nat) (iface : Interface) : Interface :=
  { iface with
    version := version
    requests := iface.requests.filter (fun m => m.since ≤ version)
    events := iface.events.filter (fun m => m.since ≤ version)
    enums := (iface.enums.filter (fun e => e.since ≤ version)).map
      (fun e => { e with entries := e.entries.filter (fun en => en.since ≤ version) }) }

/-- `preprocess_interfaces`: keep exactly the interfaces present in the
resolved-version map, each pruned to its resolved version. -/
def preprocess_interfaces (interfaces : List (Nat × Interface))
    (wanted : List (Nat × Nat)) : List (Nat × Interface) :=
  interfaces.filterMap (fun p =>
    match lookupA wanted p.1 with
    | none => none
    | some v => some (p.1, prune_interface v p.2))

/-- The per-global fatal checks of wayland_scanner's `Config::generate`:
`&interfaces[global]` (panic on unknown name), the "version too high" panic,
and the "not a global interface" panic. -/
def wl_checks (interfaces : List (Nat × Interface)) (globals : List (Nat × Nat)) : Bool :=
  globals.all (fun gv =>
    match lookupA interfaces gv.1 with
    | none => false
    | some iface =>
        decide (gv.2 ≤ iface.version) &&
        inAllowlist (make_dependency_graph (interfaces.map (fun p => p.2))) gv.1)

/-- wayland_scanner's `Config::generate` up to `preprocess_interfaces`: the
fatal checks, then the root loop.  Code generation itself is pure
pretty-printing of the pruned set and is not modelled. -/
def wl_generate (interfaces : List (Nat × Interface)) (globals : List (Nat × Nat))
    (fuel : Nat) : Option (List (Nat × Interface)) :=
  if wl_checks interfaces globals then
    (resolve wlSpec (make_dependency_graph (interfaces.map (fun p => p.2))) fuel globals).map
      (fun wanted => preprocess_interfaces interfaces wanted)
  else
    none

/-- The per-root fatal checks of ei_scanner's `Config::generate`:
`&interfaces[name]` and "version too high". -/
def ei_checks (interfaces : List (Nat × Interface)) (roots : List (Nat × Nat)) : Bool :=
  roots.all (fun gv =>
    match lookupA interfaces gv.1 with
    | none => false
    | some iface => decide (gv.2 ≤ iface.version))

/-- ei_scanner's `Config::generate` up to `preprocess_interfaces`: the fatal
checks, the root loop, then `ei_assign_versions` ("must specify interface
version"). -/
def ei_generate (interfaces : List (Nat × Interface)) (roots : List (Nat × Nat))
    (fuel : Nat) : Option (List (Nat × Interface)) :=
  if ei_checks interfaces roots then
    match resolve eiSpec (make_dependency_graph (interfaces.map (fun p => p.2))) fuel roots with
    | none => none
    | some wanted =>
      match ei_assign_versions wanted roots with
      | none => none
      | some versions => some (preprocess_interfaces interfaces versions)
  else
    none

/-- Interface `A` of the spec's dependency-closure scenario (name 0,
declared version 2): one request with a `new_id` argument of interface `B`
(a strong edge). -/
def demoA : Interface :=
  ⟨0, 2, [⟨0, false, 1, [⟨ArgKind.newId, some 1, false⟩]⟩], [], []⟩

/-- Interface `B` of the scenario (name 1, declared version 2): one request
with an `object_id` argument of interface `C` (a weak edge). -/
def demoB : Interface :=
  ⟨1, 2, [⟨0, false, 1, [⟨ArgKind.objectId, some 2, false⟩]⟩], [], []⟩

/-- Interface `C` of the scenario (name 2, declared version 1): no messages. -/
def demoC : Interface := ⟨2, 1, [], [], []⟩

def demoGraph : Graph := make_dependency_graph [demoA, demoB, demoC]

def demoInterfaces : List (Nat × Interface) := [(0, demoA), (1, demoB), (2, demoC)]

/-- An interface with requests at `since` 1, 2, 3 (named 1, 2, 3) and an enum
whose entries have `since` 1 and 3, for the version-pruning example. -/
def demoSince : Interface :=
  ⟨3, 3, [⟨1, false, 1, []⟩, ⟨2, false, 2, []⟩, ⟨3, false, 3, []⟩], [],
   [⟨0, 1, false, [⟨0, 0, 1⟩, ⟨1, 1, 3⟩]⟩]⟩

/-- A dependency graph with a strong two-interface cycle. -/
def cycleGraph : Graph :=
  [((0, 1), DependencyKind.sameVersion), ((1, 0), DependencyKind.sameVersion)]

/-- Reachability along strong edges only, in one or more steps. -/
inductive StrongReach (g : Graph) : Nat → Nat → Prop where
  | single {a b : Nat} (h : ((a, b), DependencyKind.sameVersion) ∈ g) : StrongReach g a b
  | cons {a b c : Nat} (h : ((a, b), DependencyKind.sameVersion) ∈ g)
      (hr : StrongReach g b c) : StrongReach g a c

/-- Reachability along edges of any kind, in one or more steps. -/
inductive Reach (g : Graph) : Nat → Nat → Prop where
  | single {a b : Nat} {k : DependencyKind} (h : ((a, b), k) ∈ g) : Reach g a b
  | cons {a b c : Nat} {k : DependencyKind} (h : ((a, b), k) ∈ g)
      (hr : Reach g b c) : Reach g a c

/-- A path from `a` whose successive vertices after `a` are the list `l`
(each consecutive pair an edge of `g`, of any kind). -/
inductive PathL (g : Graph) : Nat → List Nat → Prop where
  | nil (a : Nat) : PathL g a []
  | cons {a b : Nat} {k : DependencyKind} {l : List Nat} (h : ((a, b), k) ∈ g)
      (hp : PathL g b l) : PathL g a (b :: l)

/-- All interface names occurring in the dependency graph. -/
def nodesOf (g : Graph) : List Nat :=
  g.foldr (fun e acc => e.1.1 :: e.1.2 :: acc) []

/-- `c` is one of the requested roots or reachable from one. -/
def RootReaches (g : Graph) (globals : List (Nat × Nat)) (c : Nat) : Prop :=
  ∃ r v, (r, v) ∈ globals ∧ (r = c ∨ Reach g r c)

/-- The dependency graph is acyclic when restricted to the interfaces
reachable from the requested roots. -/
def AcyclicFromRoots (g : Graph) (globals : List (Nat × Nat)) : Prop :=
  ∀ c, RootReaches g globals c → ¬ Reach g c c

/-- Some cycle between two distinct interfaces is reachable from the
requested roots. -/
def HasReachableCycle (g : Graph) (globals : List (Nat × Nat)) : Prop :=
  ∃ u v, u ≠ v ∧ RootReaches g globals u ∧ Reach g u v ∧ Reach g v u

theorem StrongReach.to_reach {g : Graph} {a b : Nat} (h : StrongReach g a b) :
    Reach g a b := by
  induction h with
  | single h => exact .single h
  | cons h _ ih => exact .cons h ih

theorem Reach.trans {g : Graph} {a b c : Nat} (h1 : Reach g a b) (h2 : Reach g b c) :
    Reach g a c := by
  induction h1 with
  | single h => exact .cons h h2
  | cons h _ ih => exact .cons h (ih h2)

theorem StrongReach.snoc {g : Graph} {a b c : Nat} (h1 : StrongReach g a b)
    (h2 : ((b, c), DependencyKind.sameVersion) ∈ g) : StrongReach g a c := by
  induction h1 with
  | single h => exact .cons h (.single h2)
  | cons h _ ih => exact .cons h (ih h2)

theorem Reach.snocAny {g : Graph} {a b c : Nat} {k : DependencyKind} (h1 : Reach g a b)
    (h2 : ((b, c), k) ∈ g) : Reach g a c := by
  induction h1 with
  | single h => exact .cons h (.single h2)
  | cons h _ ih => exact .cons h (ih h2)

/-- A strongly reached interface has an incoming strong edge. -/
theorem StrongReach.last_edge {g : Graph} {a b : Nat} (h : StrongReach g a b) :
    ∃ c, ((c, b), DependencyKind.sameVersion) ∈ g := by
  induction h with
  | single h => exact ⟨_, h⟩
  | cons _ _ ih => exact ih

theorem PathL.split {g : Graph} {a b : Nat} {l1 l2 : List Nat}
    (h : PathL g a (l1 ++ b :: l2)) : PathL g b l2 := by
  induction l1 generalizing a with
  | nil => cases h with | cons _ hp => exact hp
  | cons x t ih => cases h with | cons _ hp => exact ih hp

theorem PathL.reach_mem {g : Graph} {a x : Nat} {l : List Nat}
    (h : PathL g a l) (hx : x ∈ l) : Reach g a x := by
  induction h with
  | nil => cases hx
  | cons hedge hp ih =>
    rcases List.mem_cons.mp hx with rfl | hx'
    · exact .single hedge
    · exact .cons hedge (ih hx')

/-- The map update performed for one edge, by path-strength case. -/
def stepUpd {α : Type} (S : GoSpec α) (e : (Nat × Nat) × DependencyKind) (ver : Nat)
    (dk : DependencyKind) (w : List (Nat × α)) : List (Nat × α) :=
  match DependencyKind.kmin e.2 dk with
  | .anyVersion => S.updAny w e.1.2
  | .sameVersion => S.updSame w e.1.2 ver

theorem goList_cons {α : Type} (S : GoSpec α)
    (nx : Nat → Nat → DependencyKind → List (Nat × α) → Option (List (Nat × α)))
    (e : (Nat × Nat) × DependencyKind) (rest : Graph) (ver : Nat) (dk : DependencyKind)
    (w : List (Nat × α)) :
    goList S nx (e :: rest) ver dk w =
      match nx e.1.2 ver (DependencyKind.kmin e.2 dk) (stepUpd S e ver dk w) with
      | none => none
      | some w2 => goList S nx rest ver dk w2 := by
  cases hk : DependencyKind.kmin e.2 dk <;> simp [goList, stepUpd, hk]

theorem mem_edgesFrom {g : Graph} {n : Nat} {e : (Nat × Nat) × DependencyKind} :
    e ∈ edgesFrom g n ↔ e ∈ g ∧ e.1.1 = n := by
  simp [edgesFrom, List.mem_filter]

theorem edge_mem_nodes {g : Graph} {a b : Nat} {k : DependencyKind}
    (h : ((a, b), k) ∈ g) : a ∈ nodesOf g ∧ b ∈ nodesOf g := by
  induction g with
  | nil => cases h
  | cons e rest ih =>
    rcases List.mem_cons.mp h with rfl | hmem
    · constructor <;> simp [nodesOf]
    · obtain ⟨h1, h2⟩ := ih hmem
      constructor <;> simp only [nodesOf, List.foldr_cons, List.mem_cons] <;>
        exact Or.inr (Or.inr (by simpa [nodesOf] using by assumption))

theorem PathL.mem_nodes {g : Graph} {a x : Nat} {l : List Nat}
    (h : PathL g a l) (hx : x ∈ l) : x ∈ nodesOf g := by
  induction h with
  | nil => cases hx
  | cons hedge hp ih =>
    rcases List.mem_cons.mp hx with rfl | hx'
    · exact (edge_mem_nodes hedge).2
    · exact ih hx'

/-! ### The dependency graph has no self-referential edges -/

theorem foldl_pres {β γ : Type} {P : γ → Prop} {f : γ → β → γ}
    (hstep : ∀ acc b, P acc → P (f acc b)) :
    ∀ (l : List β) (init : γ), P init → P (List.foldl f init l) := by
  intro l
  induction l with
  | nil => intro init h; exact h
  | cons b t ih => intro init h; exact ih (f init b) (hstep init b h)

theorem mem_insertMaxG {g : Graph} {key : Nat × Nat} {k : DependencyKind}
    {x : (Nat × Nat) × DependencyKind} (h : x ∈ insertMaxG g key k) :
    x.1 = key ∨ x ∈ g := by
  induction g with
  | nil =>
    simp only [insertMaxG, List.mem_singleton] at h
    exact Or.inl (by rw [h])
  | cons e rest ih =>
    by_cases hk : e.1 = key
    · simp only [insertMaxG] at h
      rw [if_pos hk] at h
      rcases List.mem_cons.mp h with rfl | hmem
      · exact Or.inl rfl
      · exact Or.inr (List.mem_cons_of_mem _ hmem)
    · simp only [insertMaxG] at h
      rw [if_neg hk] at h
      rcases List.mem_cons.mp h with rfl | hmem
      · exact Or.inr (List.mem_cons_self _ _)
      · rcases ih hmem with h1 | h2
        · exact Or.inl h1
        · exact Or.inr (List.mem_cons_of_mem _ h2)

/-- No self-referential edge is present in a graph. -/
def NoSelf (g : Graph) : Prop := ∀ a k, ((a, a), k) ∉ g

theorem noSelf_insertMaxG {g : Graph} {key : Nat × Nat} {k : DependencyKind}
    (h : NoSelf g) (hk : key.1 ≠ key.2) : NoSelf (insertMaxG g key k) := by
  intro a k' hmem
  rcases mem_insertMaxG hmem with h1 | h2
  · exact hk (by rw [← h1])
  · exact h a k' h2

/-- Self-referential edges are dropped while building the dependency graph. -/
theorem make_dependency_graph_no_self (interfaces : List Interface) :
    NoSelf (make_dependency_graph interfaces) := by
  unfold make_dependency_graph
  refine foldl_pres ?_ interfaces [] ?_
  · intro acc iface hP
    refine foldl_pres ?_ _ acc hP
    · intro acc2 msg hP2
      refine foldl_pres ?_ _ acc2 hP2
      intro acc3 arg hP3
      cases harg : arg.interface with
      | none => simpa [harg] using hP3
      | some t =>
        by_cases ht : t = iface.name
        · simpa [harg, ht] using hP3
        · have hne : (iface.name, t).1 ≠ (iface.name, t).2 := fun hh => ht hh.symm
          cases hkind : arg.kind <;> simp only [harg, ht, if_neg ht, hkind] <;>
            first
              | exact noSelf_insertMaxG hP3 hne
              | exact hP3
  · intro a' k' h
    cases h

/-! ### Generic facts about the traversal `go` -/

theorem stepUpd_rel {α : Type} {S : GoSpec α} {R : List (Nat × α) → List (Nat × α) → Prop}
    (hany : ∀ w dep, R w (S.updAny w dep))
    (hsame : ∀ w dep ver, R w (S.updSame w dep ver))
    (e : (Nat × Nat) × DependencyKind) (ver : Nat) (dk : DependencyKind)
    (w : List (Nat × α)) : R w (stepUpd S e ver dk w) := by
  unfold stepUpd
  cases DependencyKind.kmin e.2 dk
  · exact hany w e.1.2
  · exact hsame w e.1.2 ver

theorem goList_rel {α : Type} {S : GoSpec α}
    {nx : Nat → Nat → DependencyKind → List (Nat × α) → Option (List (Nat × α))}
    {R : List (Nat × α) → List (Nat × α) → Prop}
    (hrefl : ∀ w, R w w)
    (htrans : ∀ {w1 w2 w3 : List (Nat × α)}, R w1 w2 → R w2 w3 → R w1 w3)
    (hany : ∀ w dep, R w (S.updAny w dep))
    (hsame : ∀ w dep ver, R w (S.updSame w dep ver))
    (hnx : ∀ {a ver dk w w'}, nx a ver dk w = some w' → R w w') :
    ∀ {edges : Graph} {ver : Nat} {dk : DependencyKind} {w w' : List (Nat × α)},
      goList S nx edges ver dk w = some w' → R w w' := by
  intro edges
  induction edges with
  | nil =>
    intro ver dk w w' h
    simp only [goList, Option.some.injEq] at h
    exact h ▸ hrefl w
  | cons e rest ih =>
    intro ver dk w w' h
    rw [goList_cons] at h
    cases hcall : nx e.1.2 ver (DependencyKind.kmin e.2 dk) (stepUpd S e ver dk w) with
    | none => rw [hcall] at h; cases h
    | some w2 =>
      rw [hcall] at h
      exact htrans (htrans (stepUpd_rel hany hsame e ver dk w) (hnx hcall)) (ih h)

theorem go_rel {α : Type} {S : GoSpec α} {g : Graph}
    {R : List (Nat × α) → List (Nat × α) → Prop}
    (hrefl : ∀ w, R w w)
    (htrans : ∀ {w1 w2 w3 : List (Nat × α)}, R w1 w2 → R w2 w3 → R w1 w3)
    (hany : ∀ w dep, R w (S.updAny w dep))
    (hsame : ∀ w dep ver, R w (S.updSame w dep ver)) :
    ∀ {fuel : Nat} {a ver : Nat} {dk : DependencyKind} {w w' : List (Nat × α)},
      go S g fuel a ver dk w = some w' → R w w' := by
  intro fuel
  induction fuel with
  | zero => intro a ver dk w w' h; cases h
  | succ fuel ih =>
    intro a ver dk w w' h
    exact goList_rel hrefl htrans hany hsame (fun hc => ih hc) h

/-! ### Nontermination of `go` on reachable cycles -/

/-- `a` lies on a cycle or reaches one. -/
def ReachesCycle (g : Graph) (a : Nat) : Prop :=
  ∃ c, (a = c ∨ Reach g a c) ∧ Reach g c c

theorem reachesCycle_step {g : Graph} {a : Nat} (h : ReachesCycle g a) :
    ∃ b k, ((a, b), k) ∈ g ∧ ReachesCycle g b := by
  obtain ⟨c, hac, hcc⟩ := h
  rcases hac with rfl | har
  · cases hcc with
    | single hedge => exact ⟨_, _, hedge, ⟨a, Or.inl rfl, .single hedge⟩⟩
    | cons hedge hr => exact ⟨_, _, hedge, ⟨a, Or.inr hr, .cons hedge hr⟩⟩
  · cases har with
    | single hedge => exact ⟨_, _, hedge, ⟨c, Or.inl rfl, hcc⟩⟩
    | cons hedge hr => exact ⟨_, _, hedge, ⟨c, Or.inr hr, hcc⟩⟩

theorem goList_none {α : Type} {S : GoSpec α} {g : Graph} {fuel : Nat}
    (IH : ∀ {b ver : Nat} {dk : DependencyKind} {w : List (Nat × α)},
      ReachesCycle g b → go S g fuel b ver dk w = none) :
    ∀ {edges : Graph} {ver : Nat} {dk : DependencyKind} {w : List (Nat × α)},
      (∃ e ∈ edges, ReachesCycle g e.1.2) →
      goList S (go S g fuel) edges ver dk w = none := by
  intro edges
  induction edges with
  | nil => intro ver dk w h; obtain ⟨e, he, _⟩ := h; cases he
  | cons e rest ih =>
    intro ver dk w h
    rw [goList_cons]
    obtain ⟨e', he', hrc⟩ := h
    rcases List.mem_cons.mp he' with rfl | hmem
    · rw [IH hrc]
    · cases hcall : go S g fuel e.1.2 ver (DependencyKind.kmin e.2 dk) (stepUpd S e ver dk w) with
      | none => rfl
      | some w2 => exact ih ⟨e', hmem, hrc⟩

theorem go_none {α : Type} (S : GoSpec α) (g : Graph) :
    ∀ (fuel : Nat) {a ver : Nat} {dk : DependencyKind} {w : List (Nat × α)},
      ReachesCycle g a → go S g fuel a ver dk w = none := by
  intro fuel
  induction fuel with
  | zero => intro a ver dk w _; rfl
  | succ fuel ih =>
    intro a ver dk w hrc
    obtain ⟨b, k, hedge, hrcb⟩ := reachesCycle_step hrc
    exact goList_none (fun hb => ih hb)
      ⟨((a, b), k), mem_edgesFrom.mpr ⟨hedge, rfl⟩, hrcb⟩

theorem resolveAux_none {α : Type} (S : GoSpec α) (g : Graph) (fuel : Nat) :
    ∀ {globals : List (Nat × Nat)} {w : List (Nat × α)},
      (∃ gv ∈ globals, ReachesCycle g gv.1) → resolveAux S g fuel globals w = none := by
  intro globals
  induction globals with
  | nil => intro w h; obtain ⟨gv, hgv, _⟩ := h; cases hgv
  | cons gv rest ih =>
    intro w h
    obtain ⟨gv', hgv', hrc⟩ := h
    rcases List.mem_cons.mp hgv' with rfl | hmem
    · simp only [resolveAux, go_none S g fuel hrc]
    · simp only [resolveAux]
      cases hcall : go S g fuel gv.1 gv.2 .sameVersion (S.rootInsert w gv.1 gv.2) with
      | none => rfl
      | some w2 => exact ih ⟨gv', hmem, hrc⟩

/-! ### Termination of `go` on graphs acyclic from the roots -/

theorem goList_total {α : Type} {S : GoSpec α} {g : Graph} {fuel : Nat} {a : Nat}
    (IH : ∀ {b ver : Nat} {dk : DependencyKind} {w : List (Nat × α)},
      (∀ l, PathL g b l → l.length < fuel) → (go S g fuel b ver dk w).isSome)
    (hpa : ∀ l, PathL g a l → l.length < fuel + 1) :
    ∀ {edges : Graph} {ver : Nat} {dk : DependencyKind} {w : List (Nat × α)},
      (∀ e ∈ edges, e ∈ g ∧ e.1.1 = a) →
      (goList S (go S g fuel) edges ver dk w).isSome := by
  intro edges
  induction edges with
  | nil => intro ver dk w _; simp [goList]
  | cons e rest ih =>
    intro ver dk w hsub
    obtain ⟨heg, hfst⟩ := hsub e (List.mem_cons_self _ _)
    have hb : ∀ l, PathL g e.1.2 l → l.length < fuel := by
      intro l hp
      have hcons : PathL g a (e.1.2 :: l) := by
        have heg' : ((a, e.1.2), e.2) ∈ g := by
          rw [← hfst]
          exact heg
        exact PathL.cons heg' hp
      have := hpa _ hcons
      simpa using Nat.lt_of_succ_lt_succ (by simpa using this)
    rw [goList_cons]
    cases hcall : go S g fuel e.1.2 ver (DependencyKind.kmin e.2 dk) (stepUpd S e ver dk w) with
    | none =>
      have := @IH e.1.2 ver (DependencyKind.kmin e.2 dk) (stepUpd S e ver dk w) hb
      rw [hcall] at this
      cases this
    | some w2 => exact ih (fun e' he' => hsub e' (List.mem_cons_of_mem _ he'))

theorem go_total {α : Type} (S : GoSpec α) (g : Graph) :
    ∀ (fuel : Nat) {a ver : Nat} {dk : DependencyKind} {w : List (Nat × α)},
      (∀ l, PathL g a l → l.length < fuel) → (go S g fuel a ver dk w).isSome := by
  intro fuel
  induction fuel with
  | zero =>
    intro a ver dk w h
    exact absurd (h [] (PathL.nil a)) (by simp)
  | succ fuel ih =>
    intro a ver dk w h
    exact goList_total (fun hb => ih hb) h (fun e he => by
      have := mem_edgesFrom.mp he
      exact ⟨this.1, this.2⟩)

theorem length_le_of_nodup_subset {l s : List Nat} (hn : l.Nodup)
    (hs : ∀ x ∈ l, x ∈ s) : l.length ≤ s.length := by
  calc l.length = l.toFinset.card := (List.toFinset_card_of_nodup hn).symm
  _ ≤ s.toFinset.card :=
      Finset.card_le_card (fun x hx => List.mem_toFinset.mpr (hs x (List.mem_toFinset.mp hx)))
  _ ≤ s.length := List.toFinset_card_le s

theorem not_nodup_decomp {l : List Nat} (h : ¬ l.Nodup) :
    ∃ p x q r, l = p ++ x :: (q ++ x :: r) := by
  induction l with
  | nil => exact absurd List.nodup_nil h
  | cons y t ih =>
    by_cases hy : y ∈ t
    · obtain ⟨s, t', rfl⟩ := List.append_of_mem hy
      exact ⟨[], y, s, t', rfl⟩
    · have hnt : ¬ t.Nodup := fun hn => h (List.nodup_cons.mpr ⟨hy, hn⟩)
      obtain ⟨p, x, q, r, rfl⟩ := ih hnt
      exact ⟨y :: p, x, q, r, rfl⟩

/-- On a graph acyclic from the roots, paths starting at a root-reachable
vertex cannot be longer than the number of graph nodes. -/
theorem pathL_length_le {g : Graph} {globals : List (Nat × Nat)}
    (hacy : AcyclicFromRoots g globals) {a : Nat} {l : List Nat}
    (ha : RootReaches g globals a) (hp : PathL g a l) :
    l.length ≤ (nodesOf g).length := by
  by_contra hlen
  push_neg at hlen
  have hsub : ∀ x ∈ l, x ∈ nodesOf g := fun x hx => hp.mem_nodes hx
  have hnd : ¬ l.Nodup := fun hn => absurd (length_le_of_nodup_subset hn hsub) (by omega)
  obtain ⟨p, x, q, r, rfl⟩ := not_nodup_decomp hnd
  have hx1 : PathL g x (q ++ x :: r) := hp.split
  have hcyc : Reach g x x := hx1.reach_mem (by simp)
  have hax : Reach g a x := hp.reach_mem (by simp)
  obtain ⟨r0, v0, hmem, hdisj⟩ := ha
  refine hacy x ⟨r0, v0, hmem, Or.inr ?_⟩ hcyc
  rcases hdisj with rfl | hr
  · exact hax
  · exact hr.trans hax

theorem resolveAux_total {α : Type} (S : GoSpec α) (g : Graph)
    {globals : List (Nat × Nat)} (hacy : AcyclicFromRoots g globals) :
    ∀ {globals' : List (Nat × Nat)} {w : List (Nat × α)},
      (∀ gv ∈ globals', gv ∈ globals) →
      (resolveAux S g ((nodesOf g).length + 1) globals' w).isSome := by
  intro globals'
  induction globals' with
  | nil => intro w _; simp [resolveAux]
  | cons gv rest ih =>
    intro w hsub
    have hroot : RootReaches g globals gv.1 :=
      ⟨gv.1, gv.2, hsub gv (List.mem_cons_self _ _), Or.inl rfl⟩
    have hbound : ∀ l, PathL g gv.1 l → l.length < (nodesOf g).length + 1 :=
      fun l hp => Nat.lt_succ_of_le (pathL_length_le hacy hroot hp)
    simp only [resolveAux]
    cases hcall : go S g ((nodesOf g).length + 1) gv.1 gv.2 .sameVersion
        (S.rootInsert w gv.1 gv.2) with
    | none =>
      have := @go_total α S g ((nodesOf g).length + 1) gv.1 gv.2 .sameVersion
        (S.rootInsert w gv.1 gv.2) hbound
      rw [hcall] at this
      cases this
    | some w2 => exact ih (fun gv' h => hsub gv' (List.mem_cons_of_mem _ h))

/-! ### wayland_scanner: the resolved map is monotone at every key -/

theorem wlSpec_updAny (w : List (Nat × Nat)) (dep : Nat) :
    wlSpec.updAny w dep = orInsertA w dep 0 := rfl

theorem wlSpec_updSame (w : List (Nat × Nat)) (dep ver : Nat) :
    wlSpec.updSame w dep ver = insertMaxA w dep ver := rfl

theorem wlSpec_rootInsert (w : List (Nat × Nat)) (r v : Nat) :
    wlSpec.rootInsert w r v = insertA w r v := rfl

theorem kmin_same_iff {k dk : DependencyKind} :
    DependencyKind.kmin k dk = .sameVersion ↔ k = .sameVersion ∧ dk = .sameVersion := by
  cases k <;> cases dk <;> simp [DependencyKind.kmin]

/-- Values in the wayland wanted map never disappear and never decrease
across `go` (the only updates are `or_insert(0)` and `max`). -/
def MapLe (w w' : List (Nat × Nat)) : Prop :=
  ∀ k x, lookupA w k = some x → ∃ y, lookupA w' k = some y ∧ x ≤ y

theorem mapLe_refl (w : List (Nat × Nat)) : MapLe w w :=
  fun _k x h => ⟨x, h, Nat.le_refl x⟩

theorem mapLe_trans {w1 w2 w3 : List (Nat × Nat)} (h1 : MapLe w1 w2) (h2 : MapLe w2 w3) :
    MapLe w1 w3 := by
  intro k x h
  obtain ⟨y, hy, hxy⟩ := h1 k x h
  obtain ⟨z, hz, hyz⟩ := h2 k y hy
  exact ⟨z, hz, Nat.le_trans hxy hyz⟩

theorem mapLe_orInsertA (w : List (Nat × Nat)) (k0 v : Nat) :
    MapLe w (orInsertA w k0 v) := by
  intro k x h
  by_cases hk : k = k0
  · subst hk
    unfold orInsertA
    rw [h]
    exact ⟨x, h, Nat.le_refl x⟩
  · rw [lookupA_orInsertA_ne w v hk]
    exact ⟨x, h, Nat.le_refl x⟩

theorem mapLe_insertMaxA (w : List (Nat × Nat)) (k0 v : Nat) :
    MapLe w (insertMaxA w k0 v) := by
  intro k x h
  by_cases hk : k = k0
  · subst hk
    unfold insertMaxA
    rw [h]
    exact ⟨Nat.max x v, lookupA_insertA_self .., Nat.le_max_left x v⟩
  · rw [lookupA_insertMaxA_ne w v hk]
    exact ⟨x, h, Nat.le_refl x⟩

theorem wl_go_le {g : Graph} {fuel a ver : Nat} {dk : DependencyKind}
    {w w' : List (Nat × Nat)} (h : go wlSpec g fuel a ver dk w = some w') : MapLe w w' :=
  go_rel mapLe_refl mapLe_trans (fun w dep => mapLe_orInsertA w dep 0)
    (fun w dep ver => mapLe_insertMaxA w dep ver) h

theorem wl_goList_le {g : Graph} {fuel : Nat} {edges : Graph} {ver : Nat}
    {dk : DependencyKind} {w w' : List (Nat × Nat)}
    (h : goList wlSpec (go wlSpec g fuel) edges ver dk w = some w') : MapLe w w' :=
  goList_rel mapLe_refl mapLe_trans (fun w dep => mapLe_orInsertA w dep 0)
    (fun w dep ver => mapLe_insertMaxA w dep ver) (fun hc => wl_go_le hc) h

/-! ### wayland_scanner: strong reachability forces a version lower bound -/

theorem wl_goList_strong {g : Graph} {fuel u ver : Nat}
    (IH : ∀ {a : Nat} {w w' : List (Nat × Nat)},
      go wlSpec g fuel a ver .sameVersion w = some w' → StrongReach g a u →
      ∃ x, lookupA w' u = some x ∧ ver ≤ x) :
    ∀ {edges : Graph} {w w' : List (Nat × Nat)} {e : (Nat × Nat) × DependencyKind},
      e ∈ edges → e.2 = .sameVersion → (e.1.2 = u ∨ StrongReach g e.1.2 u) →
      goList wlSpec (go wlSpec g fuel) edges ver .sameVersion w = some w' →
      ∃ x, lookupA w' u = some x ∧ ver ≤ x := by
  intro edges
  induction edges with
  | nil => intro w w' e he _ _ _; cases he
  | cons e0 rest ih =>
    intro w w' e he hkind htgt hlist
    rw [goList_cons] at hlist
    cases hcall : go wlSpec g fuel e0.1.2 ver (DependencyKind.kmin e0.2 .sameVersion)
        (stepUpd wlSpec e0 ver .sameVersion w) with
    | none => rw [hcall] at hlist; cases hlist
    | some w2 =>
      rw [hcall] at hlist
      rcases List.mem_cons.mp he with rfl | hmem
      · have hks : DependencyKind.kmin e.2 .sameVersion = .sameVersion :=
          kmin_same_iff.mpr ⟨hkind, rfl⟩
        have hstep : stepUpd wlSpec e ver .sameVersion w = insertMaxA w e.1.2 ver := by
          simp only [stepUpd, hks, wlSpec_updSame]
        rw [hks] at hcall
        rw [hstep] at hcall
        rcases htgt with htgt | htgt
        · subst htgt
          obtain ⟨x0, hx0, hvx0⟩ := lookupA_insertMaxA_self w e.1.2 ver
          obtain ⟨x1, hx1, hx01⟩ := wl_go_le hcall e.1.2 x0 hx0
          obtain ⟨x2, hx2, hx12⟩ := wl_goList_le hlist e.1.2 x1 hx1
          exact ⟨x2, hx2, Nat.le_trans hvx0 (Nat.le_trans hx01 hx12)⟩
        · obtain ⟨x1, hx1, hvx1⟩ := IH hcall htgt
          obtain ⟨x2, hx2, hx12⟩ := wl_goList_le hlist u x1 hx1
          exact ⟨x2, hx2, Nat.le_trans hvx1 hx12⟩
      · exact ih hmem hkind htgt hlist

theorem wl_go_strong {g : Graph} {ver u : Nat} :
    ∀ {fuel : Nat} {a : Nat} {w w' : List (Nat × Nat)},
      go wlSpec g fuel a ver .sameVersion w = some w' → StrongReach g a u →
      ∃ x, lookupA w' u = some x ∧ ver ≤ x := by
  intro fuel
  induction fuel with
  | zero => intro a w w' h _; cases h
  | succ fuel ih =>
    intro a w w' h hsr
    cases hsr with
    | single hedge =>
      exact wl_goList_strong (fun hc hs => ih hc hs)
        (mem_edgesFrom.mpr ⟨hedge, rfl⟩) rfl (Or.inl rfl) h
    | cons hedge hr =>
      exact wl_goList_strong (fun hc hs => ih hc hs)
        (mem_edgesFrom.mpr ⟨hedge, rfl⟩) rfl (Or.inr hr) h

/-! ### wayland_scanner: any reachability forces map presence -/

theorem isSome_stepUpd_self {e : (Nat × Nat) × DependencyKind} {ver : Nat}
    {dk : DependencyKind} (w : List (Nat × Nat)) :
    (lookupA (stepUpd wlSpec e ver dk w) e.1.2).isSome := by
  unfold stepUpd
  cases DependencyKind.kmin e.2 dk
  · exact lookupA_orInsertA_self w e.1.2 0
  · obtain ⟨x, hx, _⟩ := lookupA_insertMaxA_self w e.1.2 ver
    simp [wlSpec_updSame, hx]

theorem wl_goList_reach {g : Graph} {fuel u : Nat}
    (IH : ∀ {a ver : Nat} {dk : DependencyKind} {w w' : List (Nat × Nat)},
      go wlSpec g fuel a ver dk w = some w' → Reach g a u →
      (lookupA w' u).isSome) :
    ∀ {edges : Graph} {ver : Nat} {dk : DependencyKind} {w w' : List (Nat × Nat)}
      {e : (Nat × Nat) × DependencyKind},
      e ∈ edges → (e.1.2 = u ∨ Reach g e.1.2 u) →
      goList wlSpec (go wlSpec g fuel) edges ver dk w = some w' →
      (lookupA w' u).isSome := by
  intro edges
  induction edges with
  | nil => intro ver dk w w' e he _ _; cases he
  | cons e0 rest ih =>
    intro ver dk w w' e he htgt hlist
    rw [goList_cons] at hlist
    cases hcall : go wlSpec g fuel e0.1.2 ver (DependencyKind.kmin e0.2 dk)
        (stepUpd wlSpec e0 ver dk w) with
    | none => rw [hcall] at hlist; cases hlist
    | some w2 =>
      rw [hcall] at hlist
      rcases List.mem_cons.mp he with rfl | hmem
      · rcases htgt with htgt | htgt
        · subst htgt
          have h0 := @isSome_stepUpd_self e ver dk w
          obtain ⟨x0, hx0⟩ := Option.isSome_iff_exists.mp h0
          obtain ⟨x1, hx1, _⟩ := wl_go_le hcall e.1.2 x0 hx0
          obtain ⟨x2, hx2, _⟩ := wl_goList_le hlist e.1.2 x1 hx1
          simp [hx2]
        · have h1 := IH hcall htgt
          obtain ⟨x1, hx1⟩ := Option.isSome_iff_exists.mp h1
          obtain ⟨x2, hx2, _⟩ := wl_goList_le hlist u x1 hx1
          simp [hx2]
      · exact ih hmem htgt hlist

theorem wl_go_reach {g : Graph} {u : Nat} :
    ∀ {fuel : Nat} {a ver : Nat} {dk : DependencyKind} {w w' : List (Nat × Nat)},
      go wlSpec g fuel a ver dk w = some w' → Reach g a u →
      (lookupA w' u).isSome := by
  intro fuel
  induction fuel with
  | zero => intro a ver dk w w' h _; cases h
  | succ fuel ih =>
    intro a ver dk w w' h hr
    cases hr with
    | single hedge =>
      exact wl_goList_reach (fun hc hs => ih hc hs)
        (mem_edgesFrom.mpr ⟨hedge, rfl⟩) (Or.inl rfl) h
    | cons hedge hr' =>
      exact wl_goList_reach (fun hc hs => ih hc hs)
        (mem_edgesFrom.mpr ⟨hedge, rfl⟩) (Or.inr hr') h

/-! ### wayland_scanner: every resolved value is justified by some path -/

/-- `u` is not one of the requested roots. -/
def NotRootOf (globals : List (Nat × Nat)) (u : Nat) : Prop := ∀ v, (u, v) ∉ globals

/-- The only values the resolver ever stores at a non-root interface: `0`
justified by some (possibly weak) path from a root, or the requested version
of a root with an all-strong path to `u`. -/
def WlJust (g : Graph) (globals : List (Nat × Nat)) (u x : Nat) : Prop :=
  (x = 0 ∧ ∃ r v, (r, v) ∈ globals ∧ Reach g r u) ∨
  (∃ r v, (r, v) ∈ globals ∧ StrongReach g r u ∧ x = v)

def WlInv (g : Graph) (globals : List (Nat × Nat)) (w : List (Nat × Nat)) : Prop :=
  ∀ u x, NotRootOf globals u → lookupA w u = some x → WlJust g globals u x

/-- Every call of the wayland `go` in the real run satisfies this: the version
argument carried by a strong path is some root's requested version, and the
current vertex is a root or reached from one. -/
def CallOk (g : Graph) (globals : List (Nat × Nat)) (a ver : Nat)
    (dk : DependencyKind) : Prop :=
  (dk = .sameVersion → ∃ r, (r, ver) ∈ globals ∧ (r = a ∨ StrongReach g r a)) ∧
  (∃ r v, (r, v) ∈ globals ∧ (r = a ∨ Reach g r a))

theorem callOk_strong_target {g : Graph} {globals : List (Nat × Nat)} {a ver t : Nat}
    (hco : CallOk g globals a ver .sameVersion)
    (hedge : ((a, t), DependencyKind.sameVersion) ∈ g) :
    ∃ r, (r, ver) ∈ globals ∧ StrongReach g r t := by
  obtain ⟨r, hm, hra⟩ := hco.1 rfl
  rcases hra with rfl | hsr
  · exact ⟨r, hm, .single hedge⟩
  · exact ⟨r, hm, hsr.snoc hedge⟩

theorem callOk_reach_target {g : Graph} {globals : List (Nat × Nat)} {a ver t : Nat}
    {dk : DependencyKind} {k : DependencyKind} (hco : CallOk g globals a ver dk)
    (hedge : ((a, t), k) ∈ g) :
    ∃ r v, (r, v) ∈ globals ∧ Reach g r t := by
  obtain ⟨r, v, hm, hra⟩ := hco.2
  rcases hra with rfl | hr
  · exact ⟨r, v, hm, .single hedge⟩
  · exact ⟨r, v, hm, hr.snocAny hedge⟩

theorem wlInv_insertMaxA {g : Graph} {globals w : List (Nat × Nat)} {t ver : Nat}
    (hinv : WlInv g globals w) (hsj : ∃ r, (r, ver) ∈ globals ∧ StrongReach g r t) :
    WlInv g globals (insertMaxA w t ver) := by
  intro u x hnr hlook
  by_cases hu : u = t
  · subst hu
    unfold insertMaxA at hlook
    cases hw : lookupA w u with
    | some old =>
      rw [hw, lookupA_insertA_self] at hlook
      have hx : x = Nat.max old ver := (Option.some.injEq ..).mp hlook.symm
      have hm : Nat.max old ver = old ∨ Nat.max old ver = ver := by
        rcases Nat.le_total old ver with h | h
        · exact Or.inr (Nat.max_eq_right h)
        · exact Or.inl (Nat.max_eq_left h)
      rcases hm with hm | hm
      · exact (hx.trans hm) ▸ hinv u old hnr hw
      · obtain ⟨r, hrm, hsr⟩ := hsj
        exact Or.inr ⟨r, ver, hrm, hsr, hx.trans hm⟩
    | none =>
      rw [hw, lookupA_insertA_self] at hlook
      have hx : x = ver := (Option.some.injEq ..).mp hlook.symm
      obtain ⟨r, hrm, hsr⟩ := hsj
      exact Or.inr ⟨r, ver, hrm, hsr, hx⟩
  · rw [lookupA_insertMaxA_ne w ver hu] at hlook
    exact hinv u x hnr hlook

theorem wlInv_orInsertA {g : Graph} {globals w : List (Nat × Nat)} {t : Nat}
    (hinv : WlInv g globals w) (hrj : ∃ r v, (r, v) ∈ globals ∧ Reach g r t) :
    WlInv g globals (orInsertA w t 0) := by
  intro u x hnr hlook
  by_cases hu : u = t
  · subst hu
    unfold orInsertA at hlook
    cases hw : lookupA w u with
    | some v0 =>
      rw [hw] at hlook
      exact hinv u x hnr hlook
    | none =>
      rw [hw, lookupA_insertA_self] at hlook
      have hx : x = 0 := (Option.some.injEq ..).mp hlook.symm
      exact Or.inl ⟨hx, hrj⟩
  · rw [lookupA_orInsertA_ne w 0 hu] at hlook
    exact hinv u x hnr hlook

theorem wl_goList_inv {g : Graph} {globals : List (Nat × Nat)} {fuel : Nat}
    (IH : ∀ {a' ver' : Nat} {dk' : DependencyKind} {w w' : List (Nat × Nat)},
      CallOk g globals a' ver' dk' → WlInv g globals w →
      go wlSpec g fuel a' ver' dk' w = some w' → WlInv g globals w') :
    ∀ {a ver : Nat} {dk : DependencyKind} {edges : Graph} {w w' : List (Nat × Nat)},
      (∀ e ∈ edges, e ∈ g ∧ e.1.1 = a) → CallOk g globals a ver dk →
      WlInv g globals w →
      goList wlSpec (go wlSpec g fuel) edges ver dk w = some w' →
      WlInv g globals w' := by
  intro a ver dk edges
  induction edges with
  | nil =>
    intro w w' _ _ hinv hlist
    simp only [goList, Option.some.injEq] at hlist
    exact hlist ▸ hinv
  | cons e0 rest ih =>
    intro w w' hsub hco hinv hlist
    rw [goList_cons] at hlist
    cases hcall : go wlSpec g fuel e0.1.2 ver (DependencyKind.kmin e0.2 dk)
        (stepUpd wlSpec e0 ver dk w) with
    | none => rw [hcall] at hlist; cases hlist
    | some w2 =>
      rw [hcall] at hlist
      obtain ⟨heg, hfst⟩ := hsub e0 (List.mem_cons_self _ _)
      have hsub' : ∀ e ∈ rest, e ∈ g ∧ e.1.1 = a :=
        fun e he => hsub e (List.mem_cons_of_mem _ he)
      cases hkm : DependencyKind.kmin e0.2 dk with
      | sameVersion =>
        obtain ⟨hks, hdks⟩ := kmin_same_iff.mp hkm
        have hedge : ((a, e0.1.2), DependencyKind.sameVersion) ∈ g := by
          rw [← hfst, ← hks]
          exact heg
        have hstep : stepUpd wlSpec e0 ver dk w = insertMaxA w e0.1.2 ver := by
          simp only [stepUpd, hkm, wlSpec_updSame]
        have hco' : CallOk g globals a ver .sameVersion := hdks ▸ hco
        have hsj := callOk_strong_target hco' hedge
        have hinv2 : WlInv g globals (insertMaxA w e0.1.2 ver) :=
          wlInv_insertMaxA hinv hsj
        obtain ⟨r, hrm, hsr⟩ := hsj
        have hcoC : CallOk g globals e0.1.2 ver .sameVersion :=
          ⟨fun _ => ⟨r, hrm, Or.inr hsr⟩, ⟨r, ver, hrm, Or.inr hsr.to_reach⟩⟩
        rw [hkm, hstep] at hcall
        exact ih hsub' hco (IH hcoC hinv2 hcall) hlist
      | anyVersion =>
        have hedge : ((a, e0.1.2), e0.2) ∈ g := by
          rw [← hfst]
          exact heg
        have hstep : stepUpd wlSpec e0 ver dk w = orInsertA w e0.1.2 0 := by
          simp only [stepUpd, hkm, wlSpec_updAny]
        have hrj := callOk_reach_target hco hedge
        have hinv2 : WlInv g globals (orInsertA w e0.1.2 0) :=
          wlInv_orInsertA hinv hrj
        obtain ⟨r, v, hrm, hr⟩ := hrj
        have hcoC : CallOk g globals e0.1.2 ver .anyVersion := by
          refine ⟨fun hh => absurd hh (by simp), ⟨r, v, hrm, Or.inr hr⟩⟩
        rw [hkm, hstep] at hcall
        exact ih hsub' hco (IH hcoC hinv2 hcall) hlist

theorem wl_go_inv {g : Graph} {globals : List (Nat × Nat)} :
    ∀ {fuel : Nat} {a ver : Nat} {dk : DependencyKind} {w w' : List (Nat × Nat)},
      CallOk g globals a ver dk → WlInv g globals w →
      go wlSpec g fuel a ver dk w = some w' → WlInv g globals w' := by
  intro fuel
  induction fuel with
  | zero => intro a ver dk w w' _ _ h; cases h
  | succ fuel ih =>
    intro a ver dk w w' hco hinv h
    exact wl_goList_inv (fun hc hi hgo => ih hc hi hgo)
      (fun e he => ⟨(mem_edgesFrom.mp he).1, (mem_edgesFrom.mp he).2⟩) hco hinv h

theorem wlInv_rootInsert {g : Graph} {globals w : List (Nat × Nat)}
    {gv : Nat × Nat} (hinv : WlInv g globals w) (hmem : gv ∈ globals) :
    WlInv g globals (insertA w gv.1 gv.2) := by
  intro u x hnr hlook
  by_cases hu : u = gv.1
  · exfalso
    apply hnr gv.2
    rw [hu]
    exact hmem
  · rw [lookupA_insertA_ne w gv.2 hu] at hlook
    exact hinv u x hnr hlook

theorem wl_resolveAux_inv {g : Graph} {globals : List (Nat × Nat)} {fuel : Nat} :
    ∀ {globals' : List (Nat × Nat)} {w w' : List (Nat × Nat)},
      (∀ gv ∈ globals', gv ∈ globals) → WlInv g globals w →
      resolveAux wlSpec g fuel globals' w = some w' → WlInv g globals w' := by
  intro globals'
  induction globals' with
  | nil =>
    intro w w' _ hinv hres
    simp only [resolveAux, Option.some.injEq] at hres
    exact hres ▸ hinv
  | cons gv rest ih =>
    intro w w' hsub hinv hres
    simp only [resolveAux] at hres
    cases hcall : go wlSpec g fuel gv.1 gv.2 .sameVersion (wlSpec.rootInsert w gv.1 gv.2) with
    | none => rw [hcall] at hres; cases hres
    | some w2 =>
      rw [hcall] at hres
      have hgv : gv ∈ globals := hsub gv (List.mem_cons_self _ _)
      have hgv' : (gv.1, gv.2) ∈ globals := hgv
      have hco : CallOk g globals gv.1 gv.2 .sameVersion :=
        ⟨fun _ => ⟨gv.1, hgv', Or.inl rfl⟩, ⟨gv.1, gv.2, hgv', Or.inl rfl⟩⟩
      have hinv2 : WlInv g globals (insertA w gv.1 gv.2) := wlInv_rootInsert hinv hgv
      exact ih (fun gv' h => hsub gv' (List.mem_cons_of_mem _ h))
        (wl_go_inv hco hinv2 hcall) hres

theorem wl_resolve_inv {g : Graph} {globals : List (Nat × Nat)} {fuel : Nat}
    {w : List (Nat × Nat)} (h : resolve wlSpec g fuel globals = some w) :
    WlInv g globals w := by
  refine wl_resolveAux_inv (fun gv h => h) ?_ h
  intro u x _ hl
  simp [lookupA] at hl

/-! ### wayland_scanner: driver-level value preservation at a non-root key -/

theorem wl_resolveAux_le_at {g : Graph} {fuel u : Nat} :
    ∀ {globals' : List (Nat × Nat)} {w w' : List (Nat × Nat)},
      (∀ gv ∈ globals', gv.1 ≠ u) →
      resolveAux wlSpec g fuel globals' w = some w' →
      ∀ x, lookupA w u = some x → ∃ y, lookupA w' u = some y ∧ x ≤ y := by
  intro globals'
  induction globals' with
  | nil =>
    intro w w' _ hres x hx
    simp only [resolveAux, Option.some.injEq] at hres
    exact ⟨x, hres ▸ hx, Nat.le_refl x⟩
  | cons gv rest ih =>
    intro w w' hne hres x hx
    simp only [resolveAux] at hres
    cases hcall : go wlSpec g fuel gv.1 gv.2 .sameVersion (wlSpec.rootInsert w gv.1 gv.2) with
    | none => rw [hcall] at hres; cases hres
    | some w2 =>
      rw [hcall] at hres
      have hne1 : u ≠ gv.1 := (hne gv (List.mem_cons_self _ _)).symm
      have hx1 : lookupA (insertA w gv.1 gv.2) u = some x := by
        rw [lookupA_insertA_ne w gv.2 hne1]
        exact hx
      obtain ⟨y, hy, hxy⟩ := wl_go_le hcall u x hx1
      obtain ⟨z, hz, hyz⟩ := ih (fun gv' h => hne gv' (List.mem_cons_of_mem _ h)) hres y hy
      exact ⟨z, hz, Nat.le_trans hxy hyz⟩

theorem wl_resolveAux_strong_at {g : Graph} {fuel u r v : Nat} :
    ∀ {globals' : List (Nat × Nat)} {w w' : List (Nat × Nat)},
      (∀ gv ∈ globals', gv.1 ≠ u) → (r, v) ∈ globals' → StrongReach g r u →
      resolveAux wlSpec g fuel globals' w = some w' →
      ∃ x, lookupA w' u = some x ∧ v ≤ x := by
  intro globals'
  induction globals' with
  | nil => intro w w' _ hmem _ _; cases hmem
  | cons gv rest ih =>
    intro w w' hne hmem hsr hres
    simp only [resolveAux] at hres
    cases hcall : go wlSpec g fuel gv.1 gv.2 .sameVersion (wlSpec.rootInsert w gv.1 gv.2) with
    | none => rw [hcall] at hres; cases hres
    | some w2 =>
      rw [hcall] at hres
      rcases List.mem_cons.mp hmem with rfl | hmem'
      · obtain ⟨x, hx, hvx⟩ := wl_go_strong hcall hsr
        obtain ⟨y, hy, hxy⟩ :=
          wl_resolveAux_le_at (fun gv' h => hne gv' (List.mem_cons_of_mem _ h)) hres x hx
        exact ⟨y, hy, Nat.le_trans hvx hxy⟩
      · exact ih (fun gv' h => hne gv' (List.mem_cons_of_mem _ h)) hmem' hsr hres

theorem wl_resolveAux_reach_at {g : Graph} {fuel u r v : Nat} :
    ∀ {globals' : List (Nat × Nat)} {w w' : List (Nat × Nat)},
      (∀ gv ∈ globals', gv.1 ≠ u) → (r, v) ∈ globals' → Reach g r u →
      resolveAux wlSpec g fuel globals' w = some w' →
      (lookupA w' u).isSome := by
  intro globals'
  induction globals' with
  | nil => intro w w' _ hmem _ _; cases hmem
  | cons gv rest ih =>
    intro w w' hne hmem hr hres
    simp only [resolveAux] at hres
    cases hcall : go wlSpec g fuel gv.1 gv.2 .sameVersion (wlSpec.rootInsert w gv.1 gv.2) with
    | none => rw [hcall] at hres; cases hres
    | some w2 =>
      rw [hcall] at hres
      rcases List.mem_cons.mp hmem with rfl | hmem'
      · obtain ⟨x, hx⟩ := Option.isSome_iff_exists.mp (wl_go_reach hcall hr)
        obtain ⟨y, hy, _⟩ :=
          wl_resolveAux_le_at (fun gv' h => hne gv' (List.mem_cons_of_mem _ h)) hres x hx
        simp [hy]
      · exact ih (fun gv' h => hne gv' (List.mem_cons_of_mem _ h)) hmem' hr hres

/-! ### The wayland allowlist: roots have no incoming strong edge -/

/-- All requested globals pass `global_allowlist` (`generate` panics with
"{global} is not a global interface" otherwise). -/
def AllowOk (g : Graph) (globals : List (Nat × Nat)) : Prop :=
  ∀ gv ∈ globals, inAllowlist g gv.1 = true

theorem allowOk_no_strong_edge {g : Graph} {globals : List (Nat × Nat)} {r v : Nat}
    (hal : AllowOk g globals) (hmem : (r, v) ∈ globals) (a : Nat) :
    ((a, r), DependencyKind.sameVersion) ∉ g := by
  intro hedge
  have h1 := hal (r, v) hmem
  unfold inAllowlist at h1
  have h2 := List.all_eq_true.mp h1 ((a, r), DependencyKind.sameVersion) hedge
  simp at h2

/-- A strongly reached interface is not a requested root, once the allowlist
check has passed. -/
theorem allowOk_strong_not_root {g : Graph} {globals : List (Nat × Nat)}
    {r0 u : Nat} (hal : AllowOk g globals) (hsr : StrongReach g r0 u) :
    NotRootOf globals u := by
  intro v hmem
  obtain ⟨c, hedge⟩ := hsr.last_edge
  exact allowOk_no_strong_edge hal hmem c hedge

/-! ### ei_scanner: `Real` marks are sticky and forced by strong paths -/

theorem eiSpec_updAny (w : List (Nat × DependencyKind)) (dep : Nat) :
    eiSpec.updAny w dep = orInsertA w dep .anyVersion := rfl

theorem eiSpec_updSame (w : List (Nat × DependencyKind)) (dep ver : Nat) :
    eiSpec.updSame w dep ver = insertA w dep .sameVersion := rfl

/-- Once an interface is marked `Real`, no later update unmarks it. -/
def Sticky (w w' : List (Nat × DependencyKind)) : Prop :=
  ∀ k, lookupA w k = some .sameVersion → lookupA w' k = some .sameVersion

theorem sticky_refl (w : List (Nat × DependencyKind)) : Sticky w w := fun _ h => h

theorem sticky_trans {w1 w2 w3 : List (Nat × DependencyKind)}
    (h1 : Sticky w1 w2) (h2 : Sticky w2 w3) : Sticky w1 w3 :=
  fun k h => h2 k (h1 k h)

theorem sticky_orInsertA (w : List (Nat × DependencyKind)) (k0 : Nat)
    (v : DependencyKind) : Sticky w (orInsertA w k0 v) := by
  intro k h
  by_cases hk : k = k0
  · subst hk
    unfold orInsertA
    rw [h]
    exact h
  · rw [lookupA_orInsertA_ne w v hk]
    exact h

theorem sticky_insertA_same (w : List (Nat × DependencyKind)) (k0 : Nat) :
    Sticky w (insertA w k0 .sameVersion) := by
  intro k h
  by_cases hk : k = k0
  · subst hk
    exact lookupA_insertA_self ..
  · rw [lookupA_insertA_ne w _ hk]
    exact h

theorem ei_go_sticky {g : Graph} {fuel a ver : Nat} {dk : DependencyKind}
    {w w' : List (Nat × DependencyKind)} (h : go eiSpec g fuel a ver dk w = some w') :
    Sticky w w' :=
  go_rel sticky_refl sticky_trans (fun w dep => sticky_orInsertA w dep _)
    (fun w dep _ => sticky_insertA_same w dep) h

theorem ei_goList_sticky {g : Graph} {fuel : Nat} {edges : Graph} {ver : Nat}
    {dk : DependencyKind} {w w' : List (Nat × DependencyKind)}
    (h : goList eiSpec (go eiSpec g fuel) edges ver dk w = some w') : Sticky w w' :=
  goList_rel sticky_refl sticky_trans (fun w dep => sticky_orInsertA w dep _)
    (fun w dep _ => sticky_insertA_same w dep) (fun hc => ei_go_sticky hc) h

theorem ei_goList_strong {g : Graph} {fuel u ver : Nat}
    (IH : ∀ {a : Nat} {w w' : List (Nat × DependencyKind)},
      go eiSpec g fuel a ver .sameVersion w = some w' → StrongReach g a u →
      lookupA w' u = some .sameVersion) :
    ∀ {edges : Graph} {w w' : List (Nat × DependencyKind)}
      {e : (Nat × Nat) × DependencyKind},
      e ∈ edges → e.2 = .sameVersion → (e.1.2 = u ∨ StrongReach g e.1.2 u) →
      goList eiSpec (go eiSpec g fuel) edges ver .sameVersion w = some w' →
      lookupA w' u = some .sameVersion := by
  intro edges
  induction edges with
  | nil => intro w w' e he _ _ _; cases he
  | cons e0 rest ih =>
    intro w w' e he hkind htgt hlist
    rw [goList_cons] at hlist
    cases hcall : go eiSpec g fuel e0.1.2 ver (DependencyKind.kmin e0.2 .sameVersion)
        (stepUpd eiSpec e0 ver .sameVersion w) with
    | none => rw [hcall] at hlist; cases hlist
    | some w2 =>
      rw [hcall] at hlist
      rcases List.mem_cons.mp he with rfl | hmem
      · have hks : DependencyKind.kmin e.2 .sameVersion = .sameVersion :=
          kmin_same_iff.mpr ⟨hkind, rfl⟩
        have hstep : stepUpd eiSpec e ver .sameVersion w = insertA w e.1.2 .sameVersion := by
          simp only [stepUpd, hks, eiSpec_updSame]
        rw [hks, hstep] at hcall
        rcases htgt with htgt | htgt
        · subst htgt
          exact ei_goList_sticky hlist e.1.2
            (ei_go_sticky hcall e.1.2 (lookupA_insertA_self ..))
        · exact ei_goList_sticky hlist u (IH hcall htgt)
      · exact ih hmem hkind htgt hlist

theorem ei_go_strong {g : Graph} {ver u : Nat} :
    ∀ {fuel : Nat} {a : Nat} {w w' : List (Nat × DependencyKind)},
      go eiSpec g fuel a ver .sameVersion w = some w' → StrongReach g a u →
      lookupA w' u = some .sameVersion := by
  intro fuel
  induction fuel with
  | zero => intro a w w' h _; cases h
  | succ fuel ih =>
    intro a w w' h hsr
    cases hsr with
    | single hedge =>
      exact ei_goList_strong (fun hc hs => ih hc hs)
        (mem_edgesFrom.mpr ⟨hedge, rfl⟩) rfl (Or.inl rfl) h
    | cons hedge hr =>
      exact ei_goList_strong (fun hc hs => ih hc hs)
        (mem_edgesFrom.mpr ⟨hedge, rfl⟩) rfl (Or.inr hr) h

theorem ei_resolveAux_sticky {g : Graph} {fuel : Nat} :
    ∀ {roots' : List (Nat × Nat)} {w w' : List (Nat × DependencyKind)},
      resolveAux eiSpec g fuel roots' w = some w' → Sticky w w' := by
  intro roots'
  induction roots' with
  | nil =>
    intro w w' h
    simp only [resolveAux, Option.some.injEq] at h
    exact h ▸ sticky_refl w
  | cons gv rest ih =>
    intro w w' h
    simp only [resolveAux] at h
    cases hcall : go eiSpec g fuel gv.1 gv.2 .sameVersion (eiSpec.rootInsert w gv.1 gv.2) with
    | none => rw [hcall] at h; cases h
    | some w2 =>
      rw [hcall] at h
      exact sticky_trans (sticky_trans (sticky_insertA_same w gv.1) (ei_go_sticky hcall)) (ih h)

theorem ei_resolveAux_strong {g : Graph} {fuel u r v : Nat} :
    ∀ {roots' : List (Nat × Nat)} {w w' : List (Nat × DependencyKind)},
      (r, v) ∈ roots' → StrongReach g r u →
      resolveAux eiSpec g fuel roots' w = some w' →
      lookupA w' u = some .sameVersion := by
  intro roots'
  induction roots' with
  | nil => intro w w' hmem _ _; cases hmem
  | cons gv rest ih =>
    intro w w' hmem hsr hres
    simp only [resolveAux] at hres
    cases hcall : go eiSpec g fuel gv.1 gv.2 .sameVersion (eiSpec.rootInsert w gv.1 gv.2) with
    | none => rw [hcall] at hres; cases hres
    | some w2 =>
      rw [hcall] at hres
      rcases List.mem_cons.mp hmem with rfl | hmem'
      · exact ei_resolveAux_sticky hres u (ei_go_strong hcall hsr)
      · exact ih hmem' hsr hres

theorem lookupA_mem {α : Type} {m : List (Nat × α)} {k : Nat} {v : α}
    (h : lookupA m k = some v) : (k, v) ∈ m := by
  induction m with
  | nil => cases h
  | cons p rest ih =>
    obtain ⟨k', v'⟩ := p
    by_cases hk : k' = k
    · subst hk
      have h' : some v' = some v := by simpa [lookupA] using h
      have hv : v' = v := Option.some.inj h'
      rw [← hv]
      exact List.mem_cons_self _ _
    · simp only [lookupA, if_neg hk] at h
      exact List.mem_cons_of_mem _ (ih h)

/-- A `Real`-marked interface with no caller-supplied version makes the
version-assignment pass panic. -/
theorem ei_assign_versions_none {w : List (Nat × DependencyKind)}
    {roots : List (Nat × Nat)} {u : Nat}
    (hu : lookupA w u = some .sameVersion) (hru : lookupA roots u = none) :
    ei_assign_versions w roots = none := by
  have hmem : (u, DependencyKind.sameVersion) ∈ w := lookupA_mem hu
  clear hu
  induction w with
  | nil => cases hmem
  | cons p rest ih =>
    rcases List.mem_cons.mp hmem with heq | hmem'
    · rw [← heq]
      simp only [ei_assign_versions]
      rw [hru]
    · cases hp : p.2 with
      | anyVersion =>
        simp only [ei_assign_versions, hp, ih hmem']
        rfl
      | sameVersion =>
        simp only [ei_assign_versions, hp]
        cases lookupA roots p.1 with
        | none => rfl
        | some v0 => simp [ih hmem']

end Scan

/-! ## Claim theorems -/

/-- C1: decoding the encoding of a message is claimed to return the original
message for every argument kind and every array length.  The code fails this
for arrays: `write_message` writes `s.len() + 1` as the array length field
(copied from the string branch) and `read_array` reads `length / 4 * 4` bytes
(rounding *down*).  Encoding the one-byte array `[171]` in a message and
running the generated unmarshal path (`read_array` on the header-stripped
payload) returns the empty array, not `[171]`; crates/ei's `read_array`
mirrors the same slip. -/
theorem c1_array_roundtrip_failure :
    (Wl.writeMessage ⟨[], [], [], []⟩ 1 0 [Wl.Arg.array [171]] [] =
      some ⟨[], Wl.u32Bytes 1 ++ Wl.u32Bytes (16 * 65536 + 0) ++ [2, 0, 0, 0, 171, 0, 0, 0],
            [], []⟩) ∧
    (Wl.readMessage (α := List Nat)
      ⟨Wl.u32Bytes 1 ++ Wl.u32Bytes (16 * 65536 + 0) ++ [2, 0, 0, 0, 171, 0, 0, 0], [], [], []⟩
      (fun msg => (Wl.read_array msg).map (fun p => (p.1, p.2.fds))) =
      Wl.ReadOutcome.msg [] ⟨[], [], [], []⟩) ∧
    ([] : List Nat) ≠ [171] ∧
    (Ei.read_array ⟨1, 0, Ei.encodeArg (Ei.Arg.array [171]), []⟩ =
      some ([], ⟨1, 0, [171, 0, 0, 0], []⟩)) := by
  refine ⟨by decide, by decide, by decide, by decide⟩

/-- C2: `read_message` is claimed to return `None` whenever fewer bytes than
one full header (8 in the 32-bit family, 16 in the 64-bit family) are
buffered.  The code guards only `len < 2` (respectively `len < 4`) and then
peeks a full header with `read_exact(..).unwrap()`: with 4 buffered bytes the
32-bit `read_message` panics instead of returning `None`, and likewise the
64-bit one with 8 buffered bytes; only below the too-small guard does it
return `None`. -/
theorem c2_partial_header_panics :
    (Wl.readMessage (α := Unit) ⟨[0, 0, 0, 0], [], [], []⟩ (fun _ => none) =
      Wl.ReadOutcome.panicked) ∧
    (Ei.readMessage (α := Unit) ⟨[0, 0, 0, 0, 0, 0, 0, 0], [], [], []⟩ (fun _ => none) =
      Wl.ReadOutcome.panicked) ∧
    (Wl.readMessage (α := Unit) ⟨[0], [], [], []⟩ (fun _ => none) =
      Wl.ReadOutcome.pending) ∧
    (Ei.readMessage (α := Unit) ⟨[0, 0, 0], [], [], []⟩ (fun _ => none) =
      Wl.ReadOutcome.pending) := by
  refine ⟨by decide, by decide, by decide, by decide⟩

/-- C5: encoding advances the buffer by `4 + round_up_to_4(n (+1 for
strings))` bytes — which the code does — but decoding an array argument does
*not* consume the same number of bytes: for the one-byte array `[7]` the
encoder emits 8 bytes while `read_array` consumes only 4 (length word `2`,
then `2 / 4 * 4 = 0` payload bytes), leaving the 4 payload bytes (and the
trailing `[9, 9, 9, 9]` sentinel) unconsumed.  The string path does consume
exactly its encoded size. -/
theorem c5_array_decode_consumes_fewer_bytes :
    ((Wl.encodeArg (Wl.Arg.array [7])).length = 8) ∧
    (Wl.read_array ⟨1, 0, Wl.encodeArg (Wl.Arg.array [7]) ++ [9, 9, 9, 9], []⟩ =
      some ([], ⟨1, 0, [7, 0, 0, 0, 9, 9, 9, 9], []⟩)) ∧
    ((Wl.encodeArg (Wl.Arg.string (some [115]))).length = 8) ∧
    (Wl.read_string ⟨1, 0, Wl.encodeArg (Wl.Arg.string (some [115])) ++ [9, 9, 9, 9], []⟩ =
      some (some [115], ⟨1, 0, [9, 9, 9, 9], []⟩)) ∧
    ((Wl.encodeArg (Wl.Arg.string none)).length = 4) ∧
    (Wl.read_string ⟨1, 0, Wl.encodeArg (Wl.Arg.string none) ++ [9, 9, 9, 9], []⟩ =
      some (none, ⟨1, 0, [9, 9, 9, 9], []⟩)) := by
  refine ⟨by decide, by decide, by decide, by decide, by decide, by decide⟩

/-- C6: one `recvmsg` appends its ancillary fds to the back of the incoming
queue in delivery order, `read_fd` pops from the back, and consequently a
message (or batch) whose decode claims `n` fds receives them in
last-in-first-out order: claiming all fds of a freshly received batch yields
the reversed delivery order. -/
theorem c6_fd_queue_lifo :
    (∀ (c : Wl.Connection) (bytes fds : List Nat),
      (Wl.receiveBatch c bytes fds).readFds = c.readFds ++ fds) ∧
    (∀ (obj op : Nat) (data q : List Nat) (f : Nat),
      Wl.read_fd ⟨obj, op, data, q ++ [f]⟩ = some (f, ⟨obj, op, data, q⟩)) ∧
    (∀ (obj op : Nat) (data fds : List Nat),
      Wl.claimAll ⟨obj, op, data, fds⟩ fds.length = (fds.reverse, ⟨obj, op, data, []⟩)) := by
  refine ⟨fun c bytes fds => rfl, ?_, ?_⟩
  · intro obj op data q f
    simp [Wl.read_fd, List.getLast?_concat, List.dropLast_concat]
  · intro obj op data fds
    induction fds using List.reverseRecOn with
    | nil => rfl
    | append_singleton l f ih =>
      have hlen : (l ++ [f]).length = l.length + 1 := by simp
      rw [hlen]
      have hfd : Wl.read_fd ⟨obj, op, data, l ++ [f]⟩ = some (f, ⟨obj, op, data, l⟩) := by
        simp [Wl.read_fd, List.getLast?_concat, List.dropLast_concat]
      simp only [Wl.claimAll, hfd, ih]
      simp

/-- C7: `flush_nonblocking` succeeds immediately without touching the socket
or either queue when the outgoing buffer is empty; otherwise it performs
exactly one `sendmsg` carrying the whole pending outgoing fd queue as
ancillary data, and clears the outgoing fd queue only after a successful
send: on every error — would-block (`Errno::WOULDBLOCK`) propagating
distinctly, like any other errno — the connection state (buffered bytes and
fd queue) is unchanged; on `Ok(n)` the buffer advances by the `n` accepted
bytes and the fd queue is cleared. -/
theorem c7_flush_nonblocking_contract :
    ∀ (c : Wl.Connection) (send : Wl.SendOutcome),
      (c.writeBuf = [] → Wl.flushNonblocking c send = (Except.ok true, c, none)) ∧
      (c.writeBuf ≠ [] →
        (Wl.flushNonblocking c send).2.2 = some (c.writeBuf, c.writeFds)) ∧
      (∀ e, c.writeBuf ≠ [] → send = Wl.SendOutcome.failed e →
        Wl.flushNonblocking c send = (Except.error e, c, some (c.writeBuf, c.writeFds))) ∧
      (∀ n, c.writeBuf ≠ [] → send = Wl.SendOutcome.accepted n →
        Wl.flushNonblocking c send =
          (Except.ok (decide (0 < n)),
           ⟨c.readBuf, c.writeBuf.drop n, c.readFds, []⟩,
           some (c.writeBuf, c.writeFds))) := by
  intro c send
  refine ⟨?_, ?_, ?_, ?_⟩
  · intro h
    simp [Wl.flushNonblocking, h]
  · intro h
    cases hb : c.writeBuf with
    | nil => exact absurd hb h
    | cons x t =>
      cases send <;> simp [Wl.flushNonblocking, hb]
  · intro e h hs
    subst hs
    cases hb : c.writeBuf with
    | nil => exact absurd hb h
    | cons x t => simp [Wl.flushNonblocking, hb]
  · intro n h hs
    subst hs
    cases hb : c.writeBuf with
    | nil => exact absurd hb h
    | cons x t =>
      simp only [Wl.flushNonblocking, hb, List.isEmpty_cons, if_neg Bool.false_ne_true]

/-- C7 witness: an empty-buffer flush, a would-block flush, and a partially
accepted flush on a concrete connection. -/
theorem c7_flush_nonblocking_witness :
    Wl.flushNonblocking ⟨[], [], [], [7]⟩ (Wl.SendOutcome.failed Wl.WOULDBLOCK) =
      (Except.ok true, ⟨[], [], [], [7]⟩, none) ∧
    Wl.flushNonblocking ⟨[], [1, 2], [], [7]⟩ (Wl.SendOutcome.failed Wl.WOULDBLOCK) =
      (Except.error Wl.WOULDBLOCK, ⟨[], [1, 2], [], [7]⟩, some ([1, 2], [7])) ∧
    Wl.flushNonblocking ⟨[], [1, 2], [], [7]⟩ (Wl.SendOutcome.accepted 1) =
      (Except.ok true, ⟨[], [2], [], []⟩, some ([1, 2], [7])) := by
  refine ⟨?_, ?_, ?_⟩
  · exact (c7_flush_nonblocking_contract ⟨[], [], [], [7]⟩ _).1 rfl
  · exact (c7_flush_nonblocking_contract ⟨[], [1, 2], [], [7]⟩ _).2.2.1
      Wl.WOULDBLOCK (by decide) rfl
  · exact (c7_flush_nonblocking_contract ⟨[], [1, 2], [], [7]⟩ _).2.2.2 1 (by decide) rfl

/-- C10: `write_message` asserts `bytes_len < u16::MAX - 8` in the 32-bit-id
family and `bytes_len < u32::MAX - 16` (that is, `< 2^32 - 17`) in the
64-bit-id family, panicking otherwise, and under that precondition the
declared size written into the header is exactly `8 + bytes_len`
(respectively `16 + bytes_len`), which fits the 16-bit (respectively 32-bit)
size field without overflow. -/
theorem c10_size_assertion :
    (∀ (c : Wl.Connection) (obj op : Nat) (args : List Wl.Arg) (fds : List Nat),
      ((Wl.writeMessage c obj op args fds).isSome ↔ Wl.bytesLen args < 65535 - 8) ∧
      (∀ c', Wl.writeMessage c obj op args fds = some c' →
        c'.writeBuf = c.writeBuf ++ Wl.u32Bytes obj ++
          Wl.u32Bytes ((8 + Wl.bytesLen args) * 65536 + op) ++
          (args.map Wl.encodeArg).flatten ∧
        8 + Wl.bytesLen args < 65536)) ∧
    (∀ (c : Wl.Connection) (obj op : Nat) (args : List Ei.Arg) (fds : List Nat),
      ((Ei.writeMessage c obj op args fds).isSome ↔ Ei.bytesLen args < 4294967295 - 16) ∧
      (∀ c', Ei.writeMessage c obj op args fds = some c' →
        c'.writeBuf = c.writeBuf ++ Ei.u64Bytes obj ++
          Wl.u32Bytes (16 + Ei.bytesLen args) ++ Wl.u32Bytes op ++
          (args.map Ei.encodeArg).flatten ∧
        16 + Ei.bytesLen args < 4294967296)) := by
  constructor
  · intro c obj op args fds
    constructor
    · by_cases hbl : Wl.bytesLen args < 65527
      · simp [Wl.writeMessage, hbl]
      · simp [Wl.writeMessage, hbl]
    · intro c' h
      by_cases hbl : Wl.bytesLen args < 65527
      · simp only [Wl.writeMessage, if_pos hbl, Option.some.injEq] at h
        constructor
        · rw [← h]
        · omega
      · simp [Wl.writeMessage, hbl] at h
  · intro c obj op args fds
    constructor
    · by_cases hbl : Ei.bytesLen args < 4294967279
      · simp [Ei.writeMessage, hbl]
      · simp [Ei.writeMessage, hbl]
    · intro c' h
      by_cases hbl : Ei.bytesLen args < 4294967279
      · simp only [Ei.writeMessage, if_pos hbl, Option.some.injEq] at h
        constructor
        · rw [← h]
        · omega
      · simp [Ei.writeMessage, hbl] at h

/-- C10 witness: a one-argument message in each family, with the header size
field `8 + 4` (respectively `16 + 8`). -/
theorem c10_size_assertion_witness :
    ((Wl.writeMessage ⟨[], [], [], []⟩ 1 2 [Wl.Arg.uint 5] []).isSome) ∧
    (8 + Wl.bytesLen [Wl.Arg.uint 5] < 65536) ∧
    ((Ei.writeMessage ⟨[], [], [], []⟩ 1 2 [Ei.Arg.uint64 5] []).isSome) ∧
    (16 + Ei.bytesLen [Ei.Arg.uint64 5] < 4294967296) := by
  refine ⟨?_, ?_, ?_, ?_⟩
  · exact ((c10_size_assertion.1 ⟨[], [], [], []⟩ 1 2 [Wl.Arg.uint 5] []).1).mpr (by decide)
  · exact (((c10_size_assertion.1 ⟨[], [], [], []⟩ 1 2 [Wl.Arg.uint 5] []).2)
      ⟨[], [1, 0, 0, 0, 2, 0, 12, 0, 5, 0, 0, 0], [], []⟩ (by decide)).2
  · exact ((c10_size_assertion.2 ⟨[], [], [], []⟩ 1 2 [Ei.Arg.uint64 5] []).1).mpr (by decide)
  · exact (((c10_size_assertion.2 ⟨[], [], [], []⟩ 1 2 [Ei.Arg.uint64 5] []).2)
      ⟨[], [1, 0, 0, 0, 0, 0, 0, 0, 24, 0, 0, 0, 2, 0, 0, 0, 5, 0, 0, 0, 0, 0, 0, 0], [], []⟩
      (by decide)).2

/-- C8: `preprocess_interfaces` (identical in both scanners) pins each
retained interface's version to its resolved version and retains exactly the
requests, events, enums, and enum entries with `since <= version`, in
original declaration order (order preservation as `Sublist`); an interface
appears in the output exactly when the resolved-version map has an entry for
it.  The since-1,2,3 interface resolved at version 2 keeps exactly its
since-1 and since-2 messages, in order, and its enum keeps only the since-1
entry. -/
theorem c8_version_pruning :
    (∀ (v : Nat) (iface : Scan.Interface),
      (Scan.prune_interface v iface).version = v ∧
      (Scan.prune_interface v iface).requests.Sublist iface.requests ∧
      (∀ m, m ∈ (Scan.prune_interface v iface).requests ↔
        m ∈ iface.requests ∧ m.since ≤ v) ∧
      (Scan.prune_interface v iface).events.Sublist iface.events ∧
      (∀ m, m ∈ (Scan.prune_interface v iface).events ↔
        m ∈ iface.events ∧ m.since ≤ v) ∧
      (∀ e, e ∈ (Scan.prune_interface v iface).enums ↔
        ∃ e0, e0 ∈ iface.enums ∧ e0.since ≤ v ∧
          e = { e0 with entries := e0.entries.filter (fun en => decide (en.since ≤ v)) })) ∧
    (∀ (v : Nat) (e0 : Scan.Enum),
      (e0.entries.filter (fun en => decide (en.since ≤ v))).Sublist e0.entries ∧
      (∀ en, en ∈ e0.entries.filter (fun en => decide (en.since ≤ v)) ↔
        en ∈ e0.entries ∧ en.since ≤ v)) ∧
    (∀ (interfaces : List (Nat × Scan.Interface)) (wanted : List (Nat × Nat))
        (p : Nat × Scan.Interface),
      p ∈ Scan.preprocess_interfaces interfaces wanted ↔
        ∃ iface v, (p.1, iface) ∈ interfaces ∧ lookupA wanted p.1 = some v ∧
          p.2 = Scan.prune_interface v iface) ∧
    ((Scan.prune_interface 2 Scan.demoSince).requests =
        [⟨1, false, 1, []⟩, ⟨2, false, 2, []⟩] ∧
     (Scan.prune_interface 2 Scan.demoSince).enums = [⟨0, 1, false, [⟨0, 0, 1⟩]⟩]) := by
  refine ⟨?_, ?_, ?_, by decide, by decide⟩
  · intro v iface
    refine ⟨rfl, List.filter_sublist _, ?_, List.filter_sublist _, ?_, ?_⟩
    · intro m
      simp [Scan.prune_interface, List.mem_filter]
    · intro m
      simp [Scan.prune_interface, List.mem_filter]
    · intro e
      simp only [Scan.prune_interface, List.mem_map, List.mem_filter]
      constructor
      · rintro ⟨e0, ⟨he0, hs⟩, rfl⟩
        exact ⟨e0, he0, by simpa using hs, rfl⟩
      · rintro ⟨e0, he0, hs, rfl⟩
        exact ⟨e0, ⟨he0, by simpa using hs⟩, rfl⟩
  · intro v e0
    refine ⟨List.filter_sublist _, ?_⟩
    intro en
    simp [List.mem_filter]
  · intro interfaces wanted p
    simp only [Scan.preprocess_interfaces, List.mem_filterMap]
    constructor
    · rintro ⟨a, ha, hfa⟩
      cases hlk : lookupA wanted a.1 with
      | none => rw [hlk] at hfa; cases hfa
      | some v =>
        rw [hlk] at hfa
        have hp : (a.1, Scan.prune_interface v a.2) = p := Option.some.inj hfa
        refine ⟨a.2, v, ?_, ?_, ?_⟩
        · rw [← hp]
          exact ha
        · rw [← hp]
          exact hlk
        · rw [← hp]
    · rintro ⟨iface, v, hmem, hlk, hp2⟩
      refine ⟨(p.1, iface), hmem, ?_⟩
      simp only [hlk]
      rw [← hp2]

/-- C8 witness: the since-1,2,3 interface resolved at version 2, pinned and
retained through `preprocess_interfaces`. -/
theorem c8_version_pruning_witness :
    (Scan.prune_interface 2 Scan.demoSince).version = 2 ∧
    ((3 : Nat), Scan.prune_interface 2 Scan.demoSince) ∈
      Scan.preprocess_interfaces [(3, Scan.demoSince)] [(3, 2)] := by
  constructor
  · exact (c8_version_pruning.1 2 Scan.demoSince).1
  · exact (c8_version_pruning.2.2.1 [(3, Scan.demoSince)] [(3, 2)]
      (3, Scan.prune_interface 2 Scan.demoSince)).mpr
      ⟨Scan.demoSince, 2, by decide, by decide, rfl⟩

/-- C3 counterexample: on the spec's own three-interface scenario, the 64-bit
(ei_scanner) resolver — cited by the claim — does not produce the claimed
resolved-version map `B ↦ 2, C ↦ 0` at all: it marks `B` `Real`, finds no
caller-supplied version for `B`, and generation aborts with "must specify
interface version" instead. -/
theorem c3_counterexample_ei_scanner_fatal :
    Scan.resolve Scan.eiSpec Scan.demoGraph 10 [(0, 2)] =
      some [(0, Scan.DependencyKind.sameVersion), (1, Scan.DependencyKind.sameVersion),
            (2, Scan.DependencyKind.anyVersion)] ∧
    Scan.ei_assign_versions
      [(0, Scan.DependencyKind.sameVersion), (1, Scan.DependencyKind.sameVersion),
       (2, Scan.DependencyKind.anyVersion)] [(0, 2)] = none ∧
    Scan.ei_generate Scan.demoInterfaces [(0, 2)] 10 = none := by
  refine ⟨by decide, by decide, by decide⟩

/-- C3 (amended to the 32-bit wayland_scanner resolver, which the scenario
describes): resolving root `{A: 2}` over the scenario protocol yields `B ↦ 2`
and `C ↦ 0`; in general, for root sets accepted by the generator's
global-allowlist check, an interface reached from a root over an all-strong
path receives the maximum version across all strong paths that reach it, and
an interface reached only weakly and not itself a root receives version 0.
(The 64-bit ei_scanner instead aborts unless the version is caller-supplied —
see the counterexample.) -/
theorem c3_amended_wayland_dependency_closure :
    (Scan.resolve Scan.wlSpec Scan.demoGraph 10 [(0, 2)] =
        some [(0, 2), (1, 2), (2, 0)] ∧
      lookupA [(0, 2), (1, 2), (2, 0)] 1 = some 2 ∧
      lookupA [(0, 2), (1, 2), (2, 0)] 2 = some 0) ∧
    (∀ (g : Scan.Graph) (globals : List (Nat × Nat)) (fuel : Nat)
        (w : List (Nat × Nat)) (u : Nat),
      Scan.AllowOk g globals →
      Scan.resolve Scan.wlSpec g fuel globals = some w →
      (∃ r v, (r, v) ∈ globals ∧ Scan.StrongReach g r u) →
      ∃ x, lookupA w u = some x ∧
        (∀ r v, (r, v) ∈ globals → Scan.StrongReach g r u → v ≤ x) ∧
        (∃ r v, (r, v) ∈ globals ∧ Scan.StrongReach g r u ∧ x = v)) ∧
    (∀ (g : Scan.Graph) (globals : List (Nat × Nat)) (fuel : Nat)
        (w : List (Nat × Nat)) (u : Nat),
      Scan.resolve Scan.wlSpec g fuel globals = some w →
      Scan.NotRootOf globals u →
      (∃ r v, (r, v) ∈ globals ∧ Scan.Reach g r u) →
      (∀ r v, (r, v) ∈ globals → ¬ Scan.StrongReach g r u) →
      lookupA w u = some 0) := by
  refine ⟨⟨by decide, by decide, by decide⟩, ?_, ?_⟩
  · intro g globals fuel w u hal hres hex
    obtain ⟨r0, v0, hm0, hs0⟩ := hex
    have hnr : Scan.NotRootOf globals u := Scan.allowOk_strong_not_root hal hs0
    have hne : ∀ gv ∈ globals, gv.1 ≠ u := by
      intro gv hgv heq
      apply hnr gv.2
      rw [← heq]
      exact hgv
    have hres' : Scan.resolveAux Scan.wlSpec g fuel globals [] = some w := hres
    obtain ⟨x, hx, hv0x⟩ := Scan.wl_resolveAux_strong_at hne hm0 hs0 hres'
    refine ⟨x, hx, ?_, ?_⟩
    · intro r v hm hs
      obtain ⟨x', hx', hvx'⟩ := Scan.wl_resolveAux_strong_at hne hm hs hres'
      rw [hx] at hx'
      exact (Option.some.inj hx') ▸ hvx'
    · have hj := Scan.wl_resolve_inv hres u x hnr hx
      rcases hj with ⟨hx0, _⟩ | ⟨r, v, hm, hs, hxv⟩
      · exact ⟨r0, v0, hm0, hs0, by omega⟩
      · exact ⟨r, v, hm, hs, hxv⟩
  · intro g globals fuel w u hres hnr hex hns
    have hne : ∀ gv ∈ globals, gv.1 ≠ u := by
      intro gv hgv heq
      apply hnr gv.2
      rw [← heq]
      exact hgv
    obtain ⟨r, v, hm, hr⟩ := hex
    have hres' : Scan.resolveAux Scan.wlSpec g fuel globals [] = some w := hres
    have hsome := Scan.wl_resolveAux_reach_at hne hm hr hres'
    obtain ⟨x, hx⟩ := Option.isSome_iff_exists.mp hsome
    have hj := Scan.wl_resolve_inv hres u x hnr hx
    rcases hj with ⟨hx0, _⟩ | ⟨r', v', hm', hs', _⟩
    · rw [hx, hx0]
    · exact absurd hs' (hns r' v' hm')

/-- C3 witness: the general clauses applied to the scenario graph — `B`
(name 1) gets the maximum strong-path version, `C` (name 2) gets 0. -/
theorem c3_amended_witness :
    (∃ x, lookupA [(0, 2), (1, 2), (2, 0)] 1 = some x ∧
      (∀ r v, (r, v) ∈ [(0, 2)] → Scan.StrongReach Scan.demoGraph r 1 → v ≤ x) ∧
      (∃ r v, (r, v) ∈ [(0, 2)] ∧ Scan.StrongReach Scan.demoGraph r 1 ∧ x = v)) ∧
    lookupA [(0, 2), (1, 2), (2, 0)] 2 = some 0 := by
  constructor
  · exact c3_amended_wayland_dependency_closure.2.1 Scan.demoGraph [(0, 2)] 10
      [(0, 2), (1, 2), (2, 0)] 1
      (by decide : ∀ gv ∈ [((0 : Nat), (2 : Nat))], Scan.inAllowlist Scan.demoGraph gv.1 = true)
      (by decide) ⟨0, 2, by decide, Scan.StrongReach.single (by decide)⟩
  · refine c3_amended_wayland_dependency_closure.2.2 Scan.demoGraph [(0, 2)] 10
      [(0, 2), (1, 2), (2, 0)] 2 (by decide) ?_ ?_ ?_
    · intro v hv
      simp [Scan.demoGraph] at hv
    · have h01 : ((0, 1), Scan.DependencyKind.sameVersion) ∈ Scan.demoGraph := by decide
      have h12 : ((1, 2), Scan.DependencyKind.anyVersion) ∈ Scan.demoGraph := by decide
      exact ⟨0, 2, by decide, Scan.Reach.cons h01 (Scan.Reach.single h12)⟩
    · intro r v hm hsr
      have hdemo : Scan.demoGraph =
          [((0, 1), Scan.DependencyKind.sameVersion),
           ((1, 2), Scan.DependencyKind.anyVersion)] := by decide
      have key : ∀ a b, Scan.StrongReach Scan.demoGraph a b → b = 1 := by
        intro a b h
        induction h with
        | single h =>
          rw [hdemo] at h
          rcases List.mem_cons.mp h with he | he
          · exact congrArg (fun p => p.1.2) he
          · rcases List.mem_cons.mp he with he2 | he2
            · have hk : Scan.DependencyKind.sameVersion = Scan.DependencyKind.anyVersion :=
                congrArg (fun p => p.2) he2
              exact absurd hk (by decide)
            · cases he2
        | cons h hr ih => exact ih
      exact absurd (key r 2 hsr) (by decide)

/-- C4 counterexample: in the 32-bit (wayland_scanner) generation pass —
cited by the claim — interface `B` (name 1) is strongly required from root
`A` and has no caller-supplied version, yet generation completes instead of
failing fatally, assigning `B` the propagated version 2. -/
theorem c4_counterexample_wayland_not_fatal :
    Scan.StrongReach Scan.demoGraph 0 1 ∧
    lookupA [(0, 2)] 1 = none ∧
    Scan.resolve Scan.wlSpec Scan.demoGraph 10 [(0, 2)] =
      some [(0, 2), (1, 2), (2, 0)] ∧
    Scan.wl_generate Scan.demoInterfaces [(0, 2)] 10 =
      some (Scan.preprocess_interfaces Scan.demoInterfaces [(0, 2), (1, 2), (2, 0)]) := by
  refine ⟨Scan.StrongReach.single (by decide), by decide, by decide, by decide⟩

/-- C4 (amended to the family split the code implements): in the 64-bit
(ei_scanner) pass, a strongly-required interface with no caller-supplied
version aborts generation ("must specify interface version") before any code
is emitted; the 32-bit (wayland_scanner) pass never fails for this reason —
whenever its checks pass and resolution completes, generation succeeds, and
the strongly-required interface is simply assigned a resolver-invented
(propagated) version. -/
theorem c4_amended_strong_version_requirement :
    (∀ (interfaces : List (Nat × Scan.Interface)) (roots : List (Nat × Nat))
        (fuel r v u : Nat) (w : List (Nat × Scan.DependencyKind)),
      (r, v) ∈ roots →
      Scan.StrongReach (Scan.make_dependency_graph (interfaces.map (fun p => p.2))) r u →
      lookupA roots u = none →
      Scan.resolve Scan.eiSpec (Scan.make_dependency_graph (interfaces.map (fun p => p.2)))
        fuel roots = some w →
      Scan.ei_generate interfaces roots fuel = none) ∧
    (∀ (interfaces : List (Nat × Scan.Interface)) (globals : List (Nat × Nat))
        (fuel r v u : Nat) (w : List (Nat × Nat)),
      Scan.wl_checks interfaces globals = true →
      Scan.resolve Scan.wlSpec (Scan.make_dependency_graph (interfaces.map (fun p => p.2)))
        fuel globals = some w →
      (r, v) ∈ globals →
      Scan.StrongReach (Scan.make_dependency_graph (interfaces.map (fun p => p.2))) r u →
      Scan.wl_generate interfaces globals fuel =
        some (Scan.preprocess_interfaces interfaces w) ∧
      ∃ x, lookupA w u = some x) := by
  constructor
  · intro interfaces roots fuel r v u w hm hsr hru hres
    cases hch : Scan.ei_checks interfaces roots with
    | false => simp [Scan.ei_generate, hch]
    | true =>
      have hres' : Scan.resolveAux Scan.eiSpec
          (Scan.make_dependency_graph (interfaces.map (fun p => p.2))) fuel roots [] =
          some w := hres
      have hreal := Scan.ei_resolveAux_strong hm hsr hres'
      have hassign := Scan.ei_assign_versions_none hreal hru
      simp [Scan.ei_generate, hch, hres, hassign]
  · intro interfaces globals fuel r v u w hch hres hm hsr
    constructor
    · simp [Scan.wl_generate, hch, hres]
    · have hal : Scan.AllowOk
          (Scan.make_dependency_graph (interfaces.map (fun p => p.2))) globals := by
        intro gv hgv
        have hall := List.all_eq_true.mp hch gv hgv
        cases hlk : lookupA interfaces gv.1 with
        | none => rw [hlk] at hall; cases hall
        | some iface =>
          rw [hlk] at hall
          rw [Bool.and_eq_true] at hall
          exact hall.2
      have hnr := Scan.allowOk_strong_not_root hal hsr
      have hne : ∀ gv ∈ globals, gv.1 ≠ u := by
        intro gv hgv heq
        apply hnr gv.2
        rw [← heq]
        exact hgv
      have hres' : Scan.resolveAux Scan.wlSpec
          (Scan.make_dependency_graph (interfaces.map (fun p => p.2))) fuel globals [] =
          some w := hres
      obtain ⟨x, hx, _⟩ := Scan.wl_resolveAux_strong_at hne hm hsr hres'
      exact ⟨x, hx⟩

/-- C4 witness: the scenario applied to both families — ei aborts, wayland
completes and assigns `B` a version. -/
theorem c4_amended_witness :
    Scan.ei_generate Scan.demoInterfaces [(0, 2)] 10 = none ∧
    (Scan.wl_generate Scan.demoInterfaces [(0, 2)] 10 =
        some (Scan.preprocess_interfaces Scan.demoInterfaces [(0, 2), (1, 2), (2, 0)]) ∧
      ∃ x, lookupA [(0, 2), (1, 2), (2, 0)] 1 = some x) := by
  constructor
  · exact c4_amended_strong_version_requirement.1 Scan.demoInterfaces [(0, 2)] 10 0 2 1
      [(0, Scan.DependencyKind.sameVersion), (1, Scan.DependencyKind.sameVersion),
       (2, Scan.DependencyKind.anyVersion)]
      (by decide) (Scan.StrongReach.single (by decide)) (by decide) (by decide)
  · exact c4_amended_strong_version_requirement.2 Scan.demoInterfaces [(0, 2)] 10 0 2 1
      [(0, 2), (1, 2), (2, 0)] (by decide) (by decide) (by decide)
      (Scan.StrongReach.single (by decide))

/-- C9: the traversal `go` recurses into every outgoing edge with no visited
set.  In the depth-fuel embedding (for either scanner's map updates, i.e. any
`GoSpec`): self-referential edges are dropped at graph construction; if the
graph restricted to the interfaces reachable from the requested roots is
acyclic, some recursion depth completes resolution; and if a cycle between
two distinct reachable interfaces exists, every recursion depth is exceeded —
the unbounded source recursion never terminates. -/
theorem c9_traversal_termination :
    (∀ (interfaces : List Scan.Interface), Scan.NoSelf (Scan.make_dependency_graph interfaces)) ∧
    (∀ (α : Type) (S : Scan.GoSpec α) (g : Scan.Graph) (globals : List (Nat × Nat)),
      (Scan.AcyclicFromRoots g globals →
        ∃ fuel w, Scan.resolve S g fuel globals = some w) ∧
      (Scan.HasReachableCycle g globals →
        ∀ fuel, Scan.resolve S g fuel globals = none)) := by
  refine ⟨Scan.make_dependency_graph_no_self, ?_⟩
  intro α S g globals
  constructor
  · intro hacy
    have hsome : (Scan.resolveAux S g ((Scan.nodesOf g).length + 1) globals []).isSome :=
      Scan.resolveAux_total S g hacy (fun gv h => h)
    obtain ⟨w, hw⟩ := Option.isSome_iff_exists.mp hsome
    exact ⟨(Scan.nodesOf g).length + 1, w, hw⟩
  · intro hcyc fuel
    obtain ⟨u, v, hne, ⟨r, rv, hm, hdisj⟩, huv, hvu⟩ := hcyc
    have hrc : Scan.ReachesCycle g r := ⟨u, hdisj, huv.trans hvu⟩
    exact Scan.resolveAux_none S g fuel ⟨(r, rv), hm, hrc⟩

/-- C9 witness: the empty graph resolves at some depth; the two-interface
strong cycle exhausts every depth. -/
theorem c9_traversal_termination_witness :
    (∃ fuel w, Scan.resolve Scan.wlSpec [] fuel [(0, 1)] = some w) ∧
    (∀ fuel, Scan.resolve Scan.wlSpec Scan.cycleGraph fuel [(0, 1)] = none) := by
  constructor
  · refine (c9_traversal_termination.2 Nat Scan.wlSpec [] [(0, 1)]).1 ?_
    intro c _ hr
    cases hr with
    | single h => cases h
    | cons h _ => cases h
  · intro fuel
    refine (c9_traversal_termination.2 Nat Scan.wlSpec Scan.cycleGraph [(0, 1)]).2 ?_ fuel
    have h01 : ((0, 1), Scan.DependencyKind.sameVersion) ∈ Scan.cycleGraph := by decide
    have h10 : ((1, 0), Scan.DependencyKind.sameVersion) ∈ Scan.cycleGraph := by decide
    exact ⟨0, 1, by decide, ⟨0, 1, by decide, Or.inl rfl⟩,
      Scan.Reach.single h01, Scan.Reach.single h10⟩

end Waypoint
